import Mathlib

/-!
Shallow embedding of the ageing_sim network simulator
(src/network/{prefix,node,churn,network}.rs).

Machine integers (u64 names, u8 lengths/ages) are embedded as `Nat` with
explicit `% 2^64` truncation where the Rust code can wrap; `f64` weights
are embedded as exact rationals.  The `Section` collaborator
(src/network/section.rs) is not part of the sources; the few pieces of it
that the network engine consumes are modelled from the specification and
marked as such.
-/

namespace AgeingSim

/-- Binary network prefix: a pair of a 64-bit pattern and a significant
length, ordered bits-first so that an ordered map over prefixes supports
predecessor queries (src/network/prefix.rs, struct with fields
`bits: u64`, `len: u8`). -/
structure Pfx where
  bits : Nat
  len : Nat
deriving DecidableEq

namespace Pfx

/-- Build a prefix from a 64-bit name, with `len` set to 255
(`u8::max_value()`), a sentinel larger than any real length. -/
def from_name (name : Nat) : Pfx := ⟨name, 255⟩

/-- The empty prefix. -/
def empty : Pfx := ⟨0, 0⟩

/-- Append one significant bit (`Prefix::extend`); identity above length 63. -/
def extend (p : Pfx) (bit : Nat) : Pfx :=
  if p.len > 63 then p
  else ⟨p.bits ||| ((bit &&& 1) <<< (63 - p.len)), p.len + 1⟩

/-- Mask with the `len` highest of the 64 bits set
(`Prefix::len_mask`, `(-1i64 as u64) << (64 - len)` truncated to 64 bits). -/
def len_mask (p : Pfx) : Nat :=
  if p.len = 0 then 0 else ((2 ^ 64 - 1) <<< (64 - p.len)) % 2 ^ 64

/-- Drop the last significant bit (`Prefix::shorten`); identity at length 0.
The Rust shift `len_mask() << 1` is a u64 shift, hence the truncation. -/
def shorten (p : Pfx) : Pfx :=
  if p.len < 1 then p
  else ⟨p.bits &&& ((p.len_mask <<< 1) % 2 ^ 64), p.len - 1⟩

/-- Flip the bit at position `bit` counted from the most significant end
(`Prefix::with_flipped_bit`). -/
def with_flipped_bit (p : Pfx) (bit : Nat) : Pfx :=
  ⟨p.bits ^^^ (1 <<< (63 - bit)), p.len⟩

/-- Does the name fall under this prefix (`Prefix::matches`)? -/
def matches_name (p : Pfx) (name : Nat) : Bool :=
  ((name &&& p.len_mask) ^^^ p.bits) == 0

/-- `Prefix::is_ancestor`. -/
def is_ancestor (p other : Pfx) : Bool :=
  decide (p.len ≤ other.len) && p.matches_name other.bits

/-- `Prefix::is_child`. -/
def is_child (p other : Pfx) : Bool := is_ancestor other p

/-- `Prefix::is_compatible_with`. -/
def is_compatible_with (p other : Pfx) : Bool :=
  p.is_ancestor other || p.is_child other

/-- `Prefix::is_sibling`. -/
def is_sibling (p other : Pfx) : Bool :=
  if p.len > 0 then p.with_flipped_bit (p.len - 1) == other else false

/-- Leading zero count of a 64-bit value (`u64::leading_zeros`). -/
def leading_zeros (x : Nat) : Nat :=
  if x = 0 then 64 else 63 - Nat.log2 x

/-- `Prefix::is_neighbour`: the two prefixes differ in exactly one
significant bit position within the shorter length. -/
def is_neighbour (p other : Pfx) : Bool :=
  let diff := p.bits ^^^ other.bits
  let bit := leading_zeros diff
  if bit < p.len ∧ bit < other.len then
    let diff2 := (p.with_flipped_bit bit).bits ^^^ other.bits
    let bit2 := leading_zeros diff2
    decide (bit2 ≥ p.len ∨ bit2 ≥ other.len)
  else false

/-- `Prefix::substituted_in`: replace the top `len` bits of `name` by
`bits`.  Rust's `!mask` is u64 complement, i.e. xor with all-ones. -/
def substituted_in (p : Pfx) (name : Nat) : Nat :=
  (name &&& ((2 ^ 64 - 1) ^^^ p.len_mask)) ||| p.bits

/-- Loop body of `Prefix::from_str`: extend by each character, failing on
anything but '0' and '1'. -/
def from_str_go (p : Pfx) : List Char → Option Pfx
  | [] => some p
  | c :: cs =>
    if c = '0' then from_str_go (p.extend 0) cs
    else if c = '1' then from_str_go (p.extend 1) cs
    else none

/-- `Prefix::from_str` (the string is embedded as its character list). -/
def from_str (s : List Char) : Option Pfx := from_str_go empty s

/-- `Prefix::to_string`: one '0'/'1' character per significant bit
(the string is embedded as its character list). -/
def to_string (p : Pfx) : List Char :=
  (List.range p.len).map fun i =>
    if p.bits &&& (1 <<< (63 - i)) == 0 then '0' else '1'

/-- A prefix is canonical when its length fits in 64 bits, its pattern is a
64-bit value and the low `64 - len` bits of the pattern are zero (the
representation invariant stated in the specification's data model). -/
def canonical (p : Pfx) : Prop :=
  p.len ≤ 64 ∧ p.bits < 2 ^ 64 ∧ p.bits % 2 ^ (64 - p.len) = 0

instance (p : Pfx) : Decidable (canonical p) := by
  unfold canonical; infer_instance

/-- The strict key order of the Rust `BTreeMap` over prefixes:
lexicographic on `(bits, len)`, `bits` first (the derived `Ord` on the
`Prefix` struct, whose `bits` field precedes `len`). -/
def plt (p q : Pfx) : Prop :=
  p.bits < q.bits ∨ (p.bits = q.bits ∧ p.len < q.len)

instance : DecidableRel plt := fun p q => by
  unfold plt; infer_instance

end Pfx

/-! Ordered association lists embedding the `BTreeMap<Prefix, _>` values of
the network state.  Keys are kept in strictly increasing `Pfx.plt` order by
the insertion operation, mirroring the B-tree's sorted, duplicate-free
keys. -/

/-- The keys of a map, in storage order (`BTreeMap::keys`). -/
def keys {α : Type} (l : List (Pfx × α)) : List Pfx := l.map Prod.fst

/-- Lookup (`BTreeMap::get`). -/
def findVal? {α : Type} : List (Pfx × α) → Pfx → Option α
  | [], _ => none
  | (k, v) :: rest, k' => if k = k' then some v else findVal? rest k'

/-- Key removal (`BTreeMap::remove`, dropping the returned value). -/
def eraseKey {α : Type} (k : Pfx) : List (Pfx × α) → List (Pfx × α)
  | [] => []
  | (k', v) :: rest =>
    if k = k' then rest else (k', v) :: eraseKey k rest

/-- Sorted insert-or-replace (`BTreeMap::insert`). -/
def upsert {α : Type} (k : Pfx) (v : α) : List (Pfx × α) → List (Pfx × α)
  | [] => [(k, v)]
  | (k', v') :: rest =>
    if Pfx.plt k k' then (k, v) :: (k', v') :: rest
    else if k = k' then (k, v) :: rest
    else (k', v') :: upsert k v rest

/-- Accumulator update of the predecessor scan: keep the greater of the
running candidate and the new qualifying key. -/
def upd_acc (acc : Option Pfx) (k : Pfx) : Option Pfx :=
  match acc with
  | none => some k
  | some b => if Pfx.plt b k then some k else acc

/-- Predecessor query `map.range(..bound).next_back()`: the greatest key
strictly below `bound` in the `Pfx.plt` order, if any. -/
def next_back {α : Type} : List (Pfx × α) → Pfx → Option Pfx → Option Pfx
  | [], _, acc => acc
  | (k, _) :: rest, bound, acc =>
    if Pfx.plt k bound then next_back rest bound (upd_acc acc k)
    else next_back rest bound acc

/-- The drop-probability distributions (src/params.rs `DropDist`, consumed
by `Node::drop_probability`). -/
inductive DropDist where
  | RevProp
  | Exponential
deriving DecidableEq

/-- The simulation parameters consumed by the network engine
(src/params.rs `Params`; only the fields the embedded code reads). -/
structure Params where
  init_age : Nat
  drop_dist : DropDist
  distant_relocation_probability : ℚ

/-- A node: a 64-bit name and an age (src/network/node.rs). -/
structure Node where
  name : Nat
  age : Nat
deriving DecidableEq

namespace Node

/-- `Node::new`. -/
def new (name : Nat) (age : Nat) : Node := ⟨name, age⟩

/-- `Node::rejoined`: decrement the age unless it is already at or below
`min_age`. -/
def rejoined (n : Node) (min_age : Nat) : Node :=
  if n.age > min_age then { n with age := n.age - 1 } else n

/-- `Node::is_adult`. -/
def is_adult (n : Node) : Bool := n.age > 4

/-- `Node::drop_probability`, with the f64 arithmetic embedded exactly over
the rationals (`10.0 / age` and `2.0^(-age)`). -/
def drop_probability (n : Node) (dist : DropDist) : ℚ :=
  match dist with
  | DropDist.RevProp => 10 / (n.age : ℚ)
  | DropDist.Exponential => (1 / 2 : ℚ) ^ n.age

/-- `Node::relocate`: move the node under (a half of) the target prefix,
giving it a fresh random name, and increment its age.  The random draw is
an explicit argument. -/
def relocate (n : Node) (p : Pfx) (bit : Option Nat) (rname : Nat) : Node :=
  let p' := match bit with
    | none => p
    | some b => p.extend b
  ⟨p'.substituted_in rname, n.age + 1⟩

end Node

/-- The event vocabulary routed to sections (src/network/churn.rs
`NetworkEvent`). -/
inductive NetworkEvent where
  | Live (n : Node) (count_for_aging : Bool)
  | Lost (name : Nat)
  | Gone (n : Node)
  | Relocated (n : Node)
  | PrefixChange (p : Pfx)
  | StartMerge (p : Pfx)
deriving DecidableEq

/-- `NetworkEvent::should_count`. -/
def NetworkEvent.should_count : NetworkEvent → Bool
  | NetworkEvent.StartMerge _ => false
  | NetworkEvent.Gone _ => false
  | NetworkEvent.Live _ false => false
  | _ => true

/-- The responses a section reports back (src/network/churn.rs
`SectionEvent`). -/
inductive SectionEvent where
  | NodeDropped (n : Node)
  | NodeRejected (n : Node)
  | NeedRelocate (n : Node)
  | RequestMerge
  | RequestSplit
deriving DecidableEq

/-- Modelled from the spec: `Section` (src/network/section.rs) is not under
src/.  Per the specification's collaborator contract it owns the membership
of one prefix and caches a drop weight; the membership is kept as the
sequence `nodes()` iterates. -/
structure Sec where
  pfx : Pfx
  nodes : List Node
  drop_weight : ℚ
deriving DecidableEq

namespace Sec

/-- Modelled from the spec: `Section::new(prefix)` makes an empty section. -/
def new (p : Pfx) : Sec := ⟨p, [], 0⟩

/-- Modelled from the spec: `Section::len()` is the membership count. -/
def size (s : Sec) : Nat := s.nodes.length

/-- Modelled from the spec: `Section::elders()`; elder selection is the
external section's own policy, which no settled claim depends on, so all
members are taken. -/
def elders (s : Sec) : List Node := s.nodes

/-- Modelled from the spec: `Section::recompute_drop_weight` caches the
total of the members' drop probabilities, the weight the §4.9 sampling walk
distributes over the member nodes. -/
def recompute_drop_weight (s : Sec) (params : Params) : Sec :=
  { s with drop_weight := (s.nodes.map (Node.drop_probability · params.drop_dist)).sum }

/-- Modelled from the spec: `Section::merge` of two sibling sections
returns the section at the common parent holding both memberships. -/
def merge (s other : Sec) (params : Params) : Sec :=
  recompute_drop_weight ⟨Pfx.shorten s.pfx, s.nodes ++ other.nodes, 0⟩ params

/-- Modelled from the spec: `Section::count_halves` reports the expected
populations of the two halves of a notional split. -/
def count_halves (s : Sec) (_params : Params) : Nat × Nat :=
  ((s.nodes.filter fun n => Pfx.matches_name (s.pfx.extend 0) n.name).length,
   (s.nodes.filter fun n => Pfx.matches_name (s.pfx.extend 1) n.name).length)

end Sec

/-- Merge-in-progress bookkeeping (src/network/network.rs
`PendingMerge`): for each constituent prefix, whether it has completed its
pre-merge churn. -/
structure PendingMerge where
  complete : List (Pfx × Bool)
deriving DecidableEq

namespace PendingMerge

/-- `PendingMerge::from_prefixes`. -/
def from_prefixes (pfxs : List Pfx) : PendingMerge :=
  ⟨pfxs.map fun p => (p, false)⟩

/-- `PendingMerge::completed`: mark one constituent as done. -/
def completed (pm : PendingMerge) (p : Pfx) : PendingMerge :=
  ⟨pm.complete.map fun kv => if kv.1 = p then (kv.1, true) else kv⟩

/-- `PendingMerge::is_done`. -/
def is_done (pm : PendingMerge) : Bool :=
  pm.complete.all fun kv => kv.2

/-- `PendingMerge::into_map`. -/
def into_map (pm : PendingMerge) : List (Pfx × Bool) := pm.complete

end PendingMerge

/-- Aggregated simulation counters (src/network/network.rs `Output`; the
`network_structure` time series is not consumed by any embedded code). -/
structure Output where
  adds : Nat
  drops : Nat
  drops_dist : List (Nat × Nat)
  rejoins : Nat
  relocations : Nat
  rejections : Nat
  churn : Nat
deriving DecidableEq

/-- The all-zero `Output` (`Default::default()`). -/
def Output.default : Output := ⟨0, 0, [], 0, 0, 0, 0⟩

/-- Bump the per-age drop histogram
(`*drops_dist.entry(age).or_insert(0) += 1`). -/
def bump_hist : List (Nat × Nat) → Nat → List (Nat × Nat)
  | [], a => [(a, 1)]
  | (k, c) :: rest, a =>
    if k = a then (k, c + 1) :: rest else (k, c) :: bump_hist rest a

/-- The whole network state (src/network/network.rs `Network`).  The field
`nodes` maps live prefixes to their sections. -/
structure Network where
  nodes : List (Pfx × Sec)
  left_nodes : List Node
  event_queue : List (Pfx × List NetworkEvent)
  pending_merges : List (Pfx × PendingMerge)
  params : Params
  output : Output

namespace Network

/-- `Network::new`: a single section at the empty prefix. -/
def new (params : Params) : Network :=
  ⟨[(Pfx.empty, Sec.new Pfx.empty)], [], [], [], params, Output.default⟩

/-- `Network::has_events`. -/
def has_events (net : Network) : Bool :=
  net.event_queue.any fun kv => !kv.2.isEmpty

/-- Append one event to a section's queue
(`event_queue.entry(p).or_insert_with(Vec::new).push(ev)`). -/
def enqueue (net : Network) (p : Pfx) (ev : NetworkEvent) : Network :=
  { net with
    event_queue :=
      upsert p ((findVal? net.event_queue p).getD [] ++ [ev]) net.event_queue }

/-- `Network::total_drop_weight`. -/
def total_drop_weight (net : Network) : ℚ :=
  (net.nodes.map fun kv => kv.2.drop_weight).sum

/-- `Network::prefix_for_node`: the predecessor of the name's sentinel
prefix in the ordered section map.  The Rust code unwraps the result and
asserts the match; the embedding returns an option. -/
def prefix_for_node (net : Network) (node : Node) : Option Pfx :=
  next_back net.nodes (Pfx.from_name node.name) none

/-- `Network::add_random_node`; the random 64-bit name draw is an explicit
argument.  When the predecessor query fails the Rust code panics; here the
event is simply not enqueued. -/
def add_random_node (net : Network) (rname : Nat) : Network :=
  let net :=
    { net with
      output :=
        { net.output with adds := net.output.adds + 1, churn := net.output.churn + 1 } }
  let node := Node.new rname net.params.init_age
  match prefix_for_node net node with
  | none => net
  | some p => enqueue net p (NetworkEvent.Live node true)

/-- First stage of the §4.9 weighted walk of `Network::drop_random_node`:
walk the sections in key order, decrementing the draw, until one's weight
exceeds what is left; return it with the remaining draw. -/
def find_drop_sec : List (Pfx × Sec) → ℚ → Option (Pfx × Sec × ℚ)
  | [], _ => none
  | (p, s) :: rest, drop =>
    if s.drop_weight > drop then some (p, s, drop)
    else find_drop_sec rest (drop - s.drop_weight)

/-- Second stage of the walk: the same scan over a section's nodes with
their individual drop probabilities. -/
def find_drop_node (params : Params) : List Node → ℚ → Option Node
  | [], _ => none
  | n :: rest, drop =>
    if n.drop_probability params.drop_dist > drop then some n
    else find_drop_node params rest (drop - n.drop_probability params.drop_dist)

/-- `Network::drop_random_node`; the uniform draw `random::<f64>()` is the
explicit argument `r`. -/
def drop_random_node (net : Network) (r : ℚ) : Network :=
  let net :=
    { net with
      output :=
        { net.output with drops := net.output.drops + 1, churn := net.output.churn + 1 } }
  let drop := r * total_drop_weight net
  match find_drop_sec net.nodes drop with
  | none => net
  | some (p, s, drop) =>
    match find_drop_node net.params s.nodes drop with
    | none => net
    | some node =>
      let net :=
        { net with
          output := { net.output with drops_dist := bump_hist net.output.drops_dist node.age } }
      enqueue net p (NetworkEvent.Lost node.name)

/-- `Network::rejoin_random_node`; the shuffle of `left_nodes` is supplied
by the caller as the already-shuffled list.  `Vec::pop` takes the last
element.  When the predecessor query fails the Rust code panics; here the
event is simply not enqueued. -/
def rejoin_random_node (net : Network) (shuffled : List Node) : Network :=
  let net :=
    { net with
      output :=
        { net.output with rejoins := net.output.rejoins + 1, churn := net.output.churn + 1 },
      left_nodes := shuffled }
  match net.left_nodes.getLast? with
  | none => net
  | some node =>
    let net := { net with left_nodes := net.left_nodes.dropLast }
    let node := node.rejoined net.params.init_age
    match prefix_for_node net node with
    | none => net
    | some p => enqueue net p (NetworkEvent.Live node true)

end Network

/-- Inner loop of the neighbour discovery in `Network::relocate`: starting
from a flipped-bit prefix, shorten until a live prefix is found, giving up
after `fuel` (= `len - pos`) attempts. -/
def find_live (secs : List (Pfx × Sec)) : Nat → Pfx → Option Pfx
  | 0, _ => none
  | fuel + 1, q =>
    if (findVal? secs q).isSome then some q else find_live secs fuel q.shorten

/-- The candidate set built by `Network::relocate`: for each significant
bit position of the source prefix, the first live prefix on the shortening
chain of the flipped prefix; finally the source prefix itself. -/
def relocate_candidates (secs : List (Pfx × Sec)) (src : Pfx) : List Pfx :=
  ((List.range src.len).filterMap fun pos =>
    find_live secs (src.len - pos) (src.with_flipped_bit pos)) ++ [src]

/-- The member count of a live section (`self.nodes.get(pfx).unwrap().len()`). -/
def sec_size (secs : List (Pfx × Sec)) (q : Pfx) : Nat :=
  ((findVal? secs q).map Sec.size).getD 0

/-- The sort key of `Network::relocate`'s candidate ordering:
`pfx.len() as usize * 10000 + self.nodes.get(pfx).unwrap().len()`. -/
def reloc_key (secs : List (Pfx × Sec)) (q : Pfx) : Nat :=
  q.len * 10000 + sec_size secs q

/-- The chosen relocation target: the head of the candidate list after the
stable sort by `reloc_key`, i.e. the earliest candidate attaining the
minimal key. -/
def relocate_choice (secs : List (Pfx × Sec)) (src : Pfx) : Option Pfx :=
  match relocate_candidates secs src with
  | [] => none
  | c :: cs =>
    some (cs.foldl
      (fun best x => if reloc_key secs x < reloc_key secs best then x else best) c)

namespace Network

/-- `Network::relocate`; the random draws (distant-relocation coin, fresh
names) are explicit arguments.  When a lookup the Rust code unwraps fails,
the state reached so far is returned. -/
def relocate (net : Network) (node : Node) (rdist : ℚ) (rname rname2 : Nat) : Network :=
  let net :=
    { net with
      output :=
        { net.output with
          relocations := net.output.relocations + 1,
          churn := net.output.churn + 2 } }
  let new_node :=
    if rdist < net.params.distant_relocation_probability then Node.new rname node.age
    else node
  match prefix_for_node net new_node with
  | none => net
  | some src =>
    match relocate_choice net.nodes src with
    | none => net
    | some neighbour =>
      match findVal? net.nodes neighbour with
      | none => net
      | some nsec =>
        let (count0, count1) := nsec.count_halves net.params
        let bit : Option Nat :=
          if count0 = count1 then none else if count0 > count1 then some 1 else some 0
        let new_node := new_node.relocate neighbour bit rname2
        enqueue net neighbour (NetworkEvent.Live new_node true)

/-- Constituent collection of `Network::merged_section`: look each prefix
up, removing the section and its queue when `destructive`. -/
def collect_secs : Network → List Pfx → Bool → List Sec × Network
  | net, [], _ => ([], net)
  | net, q :: rest, destructive =>
    let found := findVal? net.nodes q
    let net1 :=
      if destructive then
        { net with
          event_queue := eraseKey q net.event_queue,
          nodes := eraseKey q net.nodes }
      else net
    let res := collect_secs net1 rest destructive
    match found with
    | none => res
    | some s => (s :: res.1, res.2)

end Network

/-- Stable insertion by ascending prefix length, placing the new section
before existing ones of equal length it preceded. -/
def insert_by_len (s : Sec) : List Sec → List Sec
  | [] => [s]
  | t :: rest =>
    if s.pfx.len ≤ t.pfx.len then s :: t :: rest else t :: insert_by_len s rest

/-- The stable `sort_by_key(|s| s.prefix().len())` of
`Network::merged_section`. -/
def sort_by_len (l : List Sec) : List Sec := l.foldr insert_by_len []

/-- The combination loop of `Network::merged_section`: while more than one
section remains, sort by prefix length, pop the two longest and push their
merge.  Each pass shortens the list by one, so the initial length is enough
fuel. -/
def merge_loop (params : Params) : Nat → List Sec → List Sec
  | 0, secs => secs
  | fuel + 1, secs =>
    if secs.length ≤ 1 then secs
    else
      let sorted := sort_by_len secs
      match sorted.getLast?, sorted.dropLast.getLast? with
      | some s1, some s2 =>
        merge_loop params fuel (sorted.dropLast.dropLast ++ [s1.merge s2 params])
      | _, _ => secs

namespace Network

/-- `Network::merged_section`.  The Rust code unwraps the final pop; the
embedding returns an option. -/
def merged_section (net : Network) (pfxs : List Pfx) (destructive : Bool) :
    Option Sec × Network :=
  let res := collect_secs net pfxs destructive
  ((merge_loop res.2.params res.1.length res.1).getLast?, res.2)

/-- `Network::calculate_merge_events`. -/
def calculate_merge_events (net : Network) (merged : Sec) (pfx : Pfx) :
    List NetworkEvent :=
  let old_elders :=
    match findVal? net.nodes pfx with
    | some s => s.elders
    | none => []
  let new_elders := merged.elders
  [NetworkEvent.StartMerge merged.pfx]
    ++ (old_elders.filter fun e => decide (e ∉ new_elders)).map NetworkEvent.Gone
    ++ (new_elders.filter fun e => decide (e ∉ old_elders)).map (NetworkEvent.Live · false)
    ++ [NetworkEvent.PrefixChange merged.pfx]

/-- The initiation tail of `Network::merge`, entered once no broader
pending merge subsumes the target: register the pending merge over the live
prefixes under the target and replace each constituent's queue by its merge
preamble. -/
def merge_go (net : Network) (merged : Pfx) : Network :=
  let pfxs := (keys net.nodes).filter fun q => Pfx.is_ancestor merged q
  let pm := PendingMerge.from_prefixes pfxs
  let net1 := { net with pending_merges := upsert merged pm net.pending_merges }
  let res := merged_section net1 pfxs false
  match res.1 with
  | none => res.2
  | some msec =>
    pfxs.foldl
      (fun n q =>
        { n with event_queue := upsert q (calculate_merge_events n msec q) n.event_queue })
      res.2

/-- `Network::merge`: compute the target prefix; if a compatible pending
merge exists and is an ancestor, return unchanged; otherwise drop the
compatible entry if any and initiate the merge. -/
def merge_op (net : Network) (p : Pfx) : Network :=
  let merged := p.shorten
  match (keys net.pending_merges).find? (fun k => Pfx.is_compatible_with k merged) with
  | some compat =>
    if Pfx.is_ancestor compat merged then net
    else merge_go { net with pending_merges := eraseKey compat net.pending_merges } merged
  | none => merge_go net merged

/-- One finalisation step of `Network::process_events`: count the merge as
churn, take the pending entry out, destructively combine its recorded
constituents, recompute the drop weight and insert the merged section. -/
def finalise_one (net : Network) (pfx : Pfx) : Network :=
  let net1 := { net with output := { net.output with churn := net.output.churn + 1 } }
  match findVal? net1.pending_merges pfx with
  | none => net1
  | some pm =>
    let net2 := { net1 with pending_merges := eraseKey pfx net1.pending_merges }
    let res := merged_section net2 (keys pm.into_map) true
    match res.1 with
    | none => res.2
    | some msec =>
      let msec := msec.recompute_drop_weight res.2.params
      { res.2 with nodes := upsert msec.pfx msec res.2.nodes }

/-- The `merges_to_finalise` collection of `Network::process_events`: the
pending targets whose every constituent has completed. -/
def merges_to_finalise (net : Network) : List Pfx :=
  keys (net.pending_merges.filter fun kv => PendingMerge.is_done kv.2)

/-- The finalisation phase of `Network::process_events`, run after the
event queues have drained. -/
def finalise_merges (net : Network) : Network :=
  (merges_to_finalise net).foldl finalise_one net

end Network

/-! ### Concrete fixtures used by witnesses and counterexamples -/

/-- A parameter set with `init_age = 4`, reverse-proportional drops and no
distant relocation. -/
def base_params : Params := ⟨4, DropDist.RevProp, 0⟩

/-- Fixture for the relocation-choice counterexample: live sections `00`
(empty), `01` (7 members) and `1` (10001 members). -/
def cex_secs : List (Pfx × Sec) :=
  [(⟨0, 2⟩, ⟨⟨0, 2⟩, [], 0⟩),
   (⟨2 ^ 62, 2⟩, ⟨⟨2 ^ 62, 2⟩, List.replicate 7 ⟨0, 5⟩, 0⟩),
   (⟨2 ^ 63, 1⟩, ⟨⟨2 ^ 63, 1⟩, List.replicate 10001 ⟨0, 5⟩, 0⟩)]

/-- Fixture for the relocation-choice witness: live sections `0`
(2 members) and `1` (1 member). -/
def wit_secs : List (Pfx × Sec) :=
  [(⟨0, 1⟩, ⟨⟨0, 1⟩, [⟨1, 5⟩, ⟨2, 5⟩], 0⟩),
   (⟨2 ^ 63, 1⟩, ⟨⟨2 ^ 63, 1⟩, [⟨2 ^ 63, 5⟩], 0⟩)]

/-- Fixture: a network holding a single section at the empty prefix with no
members, one former member of age 2 in `left_nodes`. -/
def net_rejoin : Network :=
  ⟨[(Pfx.empty, Sec.new Pfx.empty)], [⟨5, 2⟩], [], [], base_params, Output.default⟩

/-- Fixture: like `net_rejoin` but the former member has age 7. -/
def net_rejoin7 : Network :=
  ⟨[(Pfx.empty, Sec.new Pfx.empty)], [⟨5, 7⟩], [], [], base_params, Output.default⟩

/-- Fixture: a network with one section holding one node of age 5, with the
cached drop weight 2 matching the node's reverse-proportional probability. -/
def net_drop : Network :=
  ⟨[(Pfx.empty, ⟨Pfx.empty, [⟨7, 5⟩], 2⟩)], [], [], [], base_params, Output.default⟩

/-- Fixture: sections `0` and `1` with a pending merge into the empty
prefix, not yet completed. -/
def net_pending : Network :=
  ⟨[(⟨0, 1⟩, Sec.new ⟨0, 1⟩), (⟨2 ^ 63, 1⟩, Sec.new ⟨2 ^ 63, 1⟩)], [], [],
   [(Pfx.empty, PendingMerge.from_prefixes [⟨0, 1⟩, ⟨2 ^ 63, 1⟩])], base_params,
   Output.default⟩

/-- Fixture: sections `0` (one member of age 5) and `1` (empty), one
completed pending merge into the empty prefix and one uncompleted pending
merge registered at `0`. -/
def net_final : Network :=
  ⟨[(⟨0, 1⟩, ⟨⟨0, 1⟩, [⟨3, 5⟩], 2⟩), (⟨2 ^ 63, 1⟩, Sec.new ⟨2 ^ 63, 1⟩)], [], [],
   [(⟨0, 1⟩, ⟨[(⟨0, 1⟩, false)]⟩),
    (Pfx.empty, ⟨[(⟨0, 1⟩, true), (⟨2 ^ 63, 1⟩, true)]⟩)], base_params,
   Output.default⟩

/-- Fixture: a network holding the single empty-prefix section, used for
the predecessor-query witness. -/
def net_single : Network :=
  ⟨[(Pfx.empty, Sec.new Pfx.empty)], [], [], [], base_params, Output.default⟩

/-- The trie-cover invariant over a section map: every 64-bit name matches
exactly one live key. -/
def trie_cover (l : List (Pfx × Sec)) : Prop :=
  ∀ m : Nat, m < 2 ^ 64 → ∃! p, p ∈ keys l ∧ Pfx.matches_name p m = true

/-!
## Theorems

First the order facts for the `BTreeMap` key order and the arithmetic
characterisations of the bitwise prefix operations, then the settled
claims.
-/

namespace Pfx

theorem eq_of_parts {p q : Pfx} (h1 : p.bits = q.bits) (h2 : p.len = q.len) : p = q := by
  cases p; cases q; cases h1; cases h2; rfl

theorem plt_irrefl (p : Pfx) : ¬ plt p p := by
  unfold plt; omega

theorem plt_trans {p q r : Pfx} (h1 : plt p q) (h2 : plt q r) : plt p r := by
  unfold plt at *; omega

theorem plt_total (p q : Pfx) : plt p q ∨ p = q ∨ plt q p := by
  rcases Nat.lt_trichotomy p.bits q.bits with h | h | h
  · exact Or.inl (Or.inl h)
  · rcases Nat.lt_trichotomy p.len q.len with h' | h' | h'
    · exact Or.inl (Or.inr ⟨h, h'⟩)
    · exact Or.inr (Or.inl (eq_of_parts h h'))
    · exact Or.inr (Or.inr (Or.inr ⟨h.symm, h'⟩))
  · exact Or.inr (Or.inr (Or.inl h))

/-- Bit-slice form of a masked conjunction: keeping the bits of `n` from
position `s` (inclusive) up to position `s + l` is division, truncation and
re-scaling. -/
theorem and_mask (n s l : Nat) :
    n &&& ((2 ^ l - 1) <<< s) = ((n >>> s) % 2 ^ l) <<< s := by
  apply Nat.eq_of_testBit_eq
  intro i
  simp only [Nat.testBit_and, Nat.testBit_shiftLeft, Nat.testBit_mod_two_pow,
    Nat.testBit_shiftRight, Nat.testBit_two_pow_sub_one]
  by_cases hs : s ≤ i
  · by_cases hl : i - s < l <;> simp [hs, hl, Nat.add_sub_cancel' hs, Bool.and_comm]
  · simp [hs]

theorem len_mask_eq (p : Pfx) (h : p.len ≤ 64) :
    p.len_mask = (2 ^ p.len - 1) <<< (64 - p.len) := by
  unfold len_mask
  by_cases h0 : p.len = 0
  · simp [h0]
  · rw [if_neg h0, Nat.shiftLeft_eq, Nat.shiftLeft_eq]
    have hlt : 1 ≤ p.len := Nat.one_le_iff_ne_zero.mpr h0
    have hpow : (2 : Nat) ^ 64 = 2 ^ p.len * 2 ^ (64 - p.len) := by
      rw [← pow_add]; congr 1; omega
    have h2 : (1 : Nat) ≤ 2 ^ (64 - p.len) := Nat.one_le_two_pow
    have h3 : (1 : Nat) ≤ 2 ^ p.len := Nat.one_le_two_pow
    have key : (2 ^ 64 - 1) * 2 ^ (64 - p.len)
        = 2 ^ 64 * (2 ^ (64 - p.len) - 1) + (2 ^ p.len - 1) * 2 ^ (64 - p.len) := by
      rw [hpow]
      zify [h2, h3, Nat.one_le_iff_ne_zero.mpr (by positivity : (2:Nat) ^ p.len * 2 ^ (64 - p.len) ≠ 0)]
      ring
    rw [key, Nat.mul_add_mod, Nat.mod_eq_of_lt]
    calc (2 ^ p.len - 1) * 2 ^ (64 - p.len)
        < 2 ^ p.len * 2 ^ (64 - p.len) := by
          exact (Nat.mul_lt_mul_right (by positivity)).mpr (by omega)
      _ = 2 ^ 64 := hpow.symm

theorem shorten_mask_eq (p : Pfx) (h1 : 1 ≤ p.len) (h2 : p.len ≤ 64) :
    (p.len_mask <<< 1) % 2 ^ 64 = (2 ^ (p.len - 1) - 1) <<< (65 - p.len) := by
  rw [len_mask_eq p h2, Nat.shiftLeft_eq, Nat.shiftLeft_eq, Nat.shiftLeft_eq]
  have hA : (1 : Nat) ≤ 2 ^ (p.len - 1) := Nat.one_le_two_pow
  have e1 : (2 : Nat) ^ p.len = 2 * 2 ^ (p.len - 1) := by
    rw [← pow_succ']; congr 1; omega
  have e2 : (2 : Nat) ^ (64 - p.len) * 2 ^ 1 = 2 ^ (65 - p.len) := by
    rw [← pow_add]; congr 1; omega
  have e3 : (2 : Nat) ^ (p.len - 1) * 2 ^ (65 - p.len) = 2 ^ 64 := by
    rw [← pow_add]; congr 1; omega
  have hA2 : (1 : Nat) ≤ 2 ^ (p.len - 1) * 2 := by omega
  have key : (2 ^ p.len - 1) * 2 ^ (64 - p.len) * 2 ^ 1
      = 2 ^ 64 * 1 + (2 ^ (p.len - 1) - 1) * 2 ^ (65 - p.len) := by
    rw [Nat.mul_assoc, e2, e1, ← e3, Nat.mul_comm 2 (2 ^ (p.len - 1))]
    zify [hA, hA2]
    ring
  rw [key, Nat.mul_add_mod, Nat.mod_eq_of_lt]
  calc (2 ^ (p.len - 1) - 1) * 2 ^ (65 - p.len)
      < 2 ^ (p.len - 1) * 2 ^ (65 - p.len) :=
        (Nat.mul_lt_mul_right (by positivity)).mpr (by omega)
    _ = 2 ^ 64 := e3

theorem matches_iff (p : Pfx) (n : Nat) (hlen : p.len ≤ 64) (hn : n < 2 ^ 64) :
    p.matches_name n = true ↔ p.bits = 2 ^ (64 - p.len) * (n / 2 ^ (64 - p.len)) := by
  unfold matches_name
  rw [len_mask_eq p hlen, and_mask, Nat.shiftLeft_eq, Nat.shiftRight_eq_div_pow]
  have hdiv : n / 2 ^ (64 - p.len) < 2 ^ p.len := by
    apply Nat.div_lt_of_lt_mul
    calc n < 2 ^ 64 := hn
      _ = 2 ^ (64 - p.len) * 2 ^ p.len := by rw [← pow_add]; congr 1; omega
  rw [Nat.mod_eq_of_lt hdiv]
  simp only [beq_iff_eq, Nat.xor_eq_zero]
  rw [Nat.mul_comm, eq_comm]

theorem extend_eq (p : Pfx) (b : Nat) (hlen : p.len ≤ 63) (hc : canonical p) :
    p.extend b = ⟨p.bits + b % 2 * 2 ^ (63 - p.len), p.len + 1⟩ := by
  unfold extend
  rw [if_neg (by omega)]
  have hpow : (2 : Nat) ^ (64 - p.len) = 2 * 2 ^ (63 - p.len) := by
    rw [← pow_succ']; congr 1; omega
  have hb : b % 2 * 2 ^ (63 - p.len) < 2 ^ (64 - p.len) := by
    rw [hpow]
    exact (Nat.mul_lt_mul_right (by positivity)).mpr (Nat.mod_lt _ (by norm_num))
  have key := Nat.mul_add_lt_is_or hb (p.bits / 2 ^ (64 - p.len))
  rw [Nat.mul_div_cancel' (Nat.dvd_of_mod_eq_zero hc.2.2)] at key
  congr 1
  rw [Nat.and_one_is_mod, Nat.shiftLeft_eq]
  exact key.symm

theorem shorten_eq (p : Pfx) (h1 : 1 ≤ p.len) (h2 : p.len ≤ 64) (hb : p.bits < 2 ^ 64) :
    p.shorten = ⟨2 ^ (65 - p.len) * (p.bits / 2 ^ (65 - p.len)), p.len - 1⟩ := by
  unfold shorten
  rw [if_neg (by omega)]
  congr 1
  rw [shorten_mask_eq p h1 h2, and_mask, Nat.shiftLeft_eq, Nat.shiftRight_eq_div_pow]
  have hdiv : p.bits / 2 ^ (65 - p.len) < 2 ^ (p.len - 1) := by
    apply Nat.div_lt_of_lt_mul
    calc p.bits < 2 ^ 64 := hb
      _ = 2 ^ (65 - p.len) * 2 ^ (p.len - 1) := by rw [← pow_add]; congr 1; omega
  rw [Nat.mod_eq_of_lt hdiv, Nat.mul_comm]

theorem extend_shorten (p : Pfx) (hc : canonical p) (hlen : p.len < 64) (b : Nat) :
    (p.extend b).shorten = p := by
  rw [extend_eq p b (by omega) hc]
  have hs : 64 - p.len = (63 - p.len) + 1 := by omega
  have hcb : p.bits = 2 ^ ((63 - p.len) + 1) * (p.bits / 2 ^ ((63 - p.len) + 1)) := by
    rw [← hs]
    exact (Nat.mul_div_cancel' (Nat.dvd_of_mod_eq_zero hc.2.2)).symm
  have hblt : b % 2 * 2 ^ (63 - p.len) < 2 ^ ((63 - p.len) + 1) := by
    rw [pow_succ']
    exact (Nat.mul_lt_mul_right (by positivity)).mpr (Nat.mod_lt _ (by norm_num))
  have hq : p.bits / 2 ^ ((63 - p.len) + 1) < 2 ^ (63 - (63 - p.len)) := by
    apply Nat.div_lt_of_lt_mul
    calc p.bits < 2 ^ 64 := hc.2.1
      _ = 2 ^ ((63 - p.len) + 1) * 2 ^ (63 - (63 - p.len)) := by
        rw [← pow_add]; congr 1; omega
  have hnew : p.bits + b % 2 * 2 ^ (63 - p.len) < 2 ^ 64 := by
    have step1 : p.bits + b % 2 * 2 ^ (63 - p.len)
        < 2 ^ ((63 - p.len) + 1) * (p.bits / 2 ^ ((63 - p.len) + 1) + 1) := by
      rw [Nat.mul_add, Nat.mul_one, ← hcb]
      exact Nat.add_lt_add_left hblt _
    calc p.bits + b % 2 * 2 ^ (63 - p.len)
        < 2 ^ ((63 - p.len) + 1) * (p.bits / 2 ^ ((63 - p.len) + 1) + 1) := step1
      _ ≤ 2 ^ ((63 - p.len) + 1) * 2 ^ (63 - (63 - p.len)) :=
          Nat.mul_le_mul_left _ (by omega)
      _ = 2 ^ 64 := by rw [← pow_add]; congr 1; omega
  rw [shorten_eq ⟨p.bits + b % 2 * 2 ^ (63 - p.len), p.len + 1⟩
    (by show (1 : Nat) ≤ p.len + 1; omega) (by show p.len + 1 ≤ 64; omega) hnew]
  apply eq_of_parts
  · show 2 ^ (65 - (p.len + 1)) * ((p.bits + b % 2 * 2 ^ (63 - p.len)) / 2 ^ (65 - (p.len + 1)))
      = p.bits
    have h65 : 65 - (p.len + 1) = (63 - p.len) + 1 := by omega
    rw [h65]
    conv_lhs => rw [hcb]
    rw [Nat.mul_add_div (by positivity), Nat.div_eq_of_lt hblt, Nat.add_zero]
    exact hcb.symm
  · show p.len + 1 - 1 = p.len
    omega

end Pfx

/-- C8: for all prefixes `p` and `q`, `is_neighbour` holds exactly when,
with `k` the leading-zero count of `p.bits XOR q.bits`, both
`k < min(p.len, q.len)` holds and flipping bit `k` of `p` pushes the
leading-zero count of the difference to at least `min(p.len, q.len)`; in
particular the empty prefix neighbours nothing and nothing neighbours the
empty prefix. -/
theorem claim_is_neighbour_char (p q : Pfx) :
    (Pfx.is_neighbour p q = true ↔
      (Pfx.leading_zeros (p.bits ^^^ q.bits) < min p.len q.len ∧
        min p.len q.len ≤
          Pfx.leading_zeros
            ((p.with_flipped_bit (Pfx.leading_zeros (p.bits ^^^ q.bits))).bits ^^^ q.bits)))
    ∧ Pfx.is_neighbour Pfx.empty q = false
    ∧ Pfx.is_neighbour q Pfx.empty = false := by
  refine ⟨?_, ?_, ?_⟩
  · simp only [Pfx.is_neighbour]
    by_cases h : Pfx.leading_zeros (p.bits ^^^ q.bits) < p.len ∧
        Pfx.leading_zeros (p.bits ^^^ q.bits) < q.len
    · rw [if_pos h]
      simp only [decide_eq_true_eq, ge_iff_le]
      omega
    · rw [if_neg h]
      simp only [Bool.false_eq_true, false_iff]
      omega
  · simp only [Pfx.is_neighbour]
    rw [if_neg]
    simp only [Pfx.empty]
    omega
  · simp only [Pfx.is_neighbour]
    rw [if_neg]
    simp only [Pfx.empty]
    omega

/-- C9: for every canonical prefix `p` with `p.len < 64` and every bit
`b ∈ {0,1}`, `p.extend(b).shorten() = p`. -/
theorem claim_extend_shorten (p : Pfx) (hc : Pfx.canonical p) (hlen : p.len < 64)
    (b : Nat) (_hb : b = 0 ∨ b = 1) : (p.extend b).shorten = p :=
  Pfx.extend_shorten p hc hlen b

/-- Witness for C9 at the length-one prefix `1` and bit 0. -/
theorem claim_extend_shorten_witness :
    Pfx.canonical ⟨2 ^ 63, 1⟩ ∧ (Pfx.extend ⟨2 ^ 63, 1⟩ 0).shorten = ⟨2 ^ 63, 1⟩ :=
  ⟨by decide, claim_extend_shorten ⟨2 ^ 63, 1⟩ (by decide) (by decide) 0 (Or.inl rfl)⟩

/-- C2 counterexample: a node of age 2 rejoining with `init_age = 4` is
enqueued with age 2 unchanged, not `max(2-1, 4) = 4`: `Node::rejoined` only
ever decrements the age, it never raises it to `init_age`. -/
theorem claim_rejoin_age_cex :
    (Network.rejoin_random_node net_rejoin [⟨5, 2⟩]).event_queue
      = [(Pfx.empty, [NetworkEvent.Live ⟨5, 2⟩ true])]
    ∧ (2 : Nat) ≠ max (2 - 1) base_params.init_age := by
  constructor
  · decide
  · decide

/-- C2 amended: the node enqueued by `rejoin_random_node` is the popped
node with age decreased by 1 when the original age exceeds `init_age` and
unchanged otherwise; this agrees with `max(age-1, init_age)` exactly when
the original age is at least `init_age`. -/
theorem claim_rejoin_age_amended (net : Network) (shuffled : List Node) (nd : Node)
    (p : Pfx) (hpop : shuffled.getLast? = some nd)
    (hpfx : Network.prefix_for_node net (nd.rejoined net.params.init_age) = some p) :
    (Network.rejoin_random_node net shuffled).event_queue
      = upsert p ((findVal? net.event_queue p).getD []
          ++ [NetworkEvent.Live (nd.rejoined net.params.init_age) true]) net.event_queue
    ∧ (nd.rejoined net.params.init_age).age
      = (if net.params.init_age < nd.age then nd.age - 1 else nd.age)
    ∧ (net.params.init_age ≤ nd.age →
        (nd.rejoined net.params.init_age).age = max (nd.age - 1) net.params.init_age) := by
  refine ⟨?_, ?_, ?_⟩
  · unfold Network.rejoin_random_node
    simp only [Network.prefix_for_node] at hpfx
    simp only [hpop, Network.prefix_for_node, Network.enqueue, hpfx]
  · unfold Node.rejoined
    split <;> simp_all
  · intro h
    unfold Node.rejoined
    split <;> simp_all <;> omega

/-- Witness for the amended C2: a node of age 7 rejoins with `init_age = 4`
and is enqueued with age 6. -/
theorem claim_rejoin_age_amended_witness :
    ([⟨5, 7⟩] : List Node).getLast? = some ⟨5, 7⟩
    ∧ Network.prefix_for_node net_rejoin7
        (Node.rejoined ⟨5, 7⟩ net_rejoin7.params.init_age) = some Pfx.empty
    ∧ ((Network.rejoin_random_node net_rejoin7 [⟨5, 7⟩]).event_queue
        = upsert Pfx.empty ((findVal? net_rejoin7.event_queue Pfx.empty).getD []
            ++ [NetworkEvent.Live (Node.rejoined ⟨5, 7⟩ net_rejoin7.params.init_age) true])
            net_rejoin7.event_queue
      ∧ (Node.rejoined ⟨5, 7⟩ net_rejoin7.params.init_age).age
        = (if net_rejoin7.params.init_age < Node.age ⟨5, 7⟩ then Node.age ⟨5, 7⟩ - 1
           else Node.age ⟨5, 7⟩)
      ∧ (net_rejoin7.params.init_age ≤ Node.age ⟨5, 7⟩ →
          (Node.rejoined ⟨5, 7⟩ net_rejoin7.params.init_age).age
            = max (Node.age ⟨5, 7⟩ - 1) net_rejoin7.params.init_age)) :=
  ⟨by decide, by decide,
    claim_rejoin_age_amended net_rejoin7 [⟨5, 7⟩] ⟨5, 7⟩ Pfx.empty (by decide) (by decide)⟩

/-- The running minimum kept by a stable sort-then-take-first: the fold
keeps an element of the list attaining the least key. -/
theorem foldl_min_key {α : Type} (key : α → Nat) (a : α) (l : List α) :
    l.foldl (fun best x => if key x < key best then x else best) a ∈ a :: l
    ∧ ∀ x ∈ a :: l,
        key (l.foldl (fun best x => if key x < key best then x else best) a) ≤ key x := by
  induction l generalizing a with
  | nil => simp
  | cons y ys ih =>
    have ih' := ih (if key y < key a then y else a)
    simp only [List.foldl_cons]
    have hacc_a : key (if key y < key a then y else a) ≤ key a := by
      by_cases hk : key y < key a
      · rw [if_pos hk]; omega
      · rw [if_neg hk]
    have hacc_y : key (if key y < key a then y else a) ≤ key y := by
      by_cases hk : key y < key a
      · rw [if_pos hk]
      · rw [if_neg hk]; omega
    constructor
    · have h := List.mem_cons.mp ih'.1
      simp only [List.mem_cons]
      rcases h with h | h
      · by_cases hk : key y < key a
        · exact Or.inr (Or.inl (h.trans (if_pos hk)))
        · exact Or.inl (h.trans (if_neg hk))
      · exact Or.inr (Or.inr h)
    · intro x hx
      have hmin := ih'.2
      have hhead : key (ys.foldl (fun best x => if key x < key best then x else best)
          (if key y < key a then y else a)) ≤ key (if key y < key a then y else a) :=
        hmin _ (List.mem_cons_self _ _)
      rcases List.mem_cons.mp hx with h | hx'
      · rw [h]; exact hhead.trans hacc_a
      rcases List.mem_cons.mp hx' with h | hx''
      · rw [h]; exact hhead.trans hacc_y
      · exact hmin _ (List.mem_cons_of_mem _ hx'')

/-- C4 counterexample: with live sections `00` (0 members), `01`
(7 members) and `1` (10001 members) and source `00`, the candidate set is
`[1, 01, 00]` but the key `len*10000 + size` selects `00`, a strictly
longer prefix than the candidate `1` — the choice is not the lexicographic
`(length, size)` minimum once a section reaches 10000 members. -/
theorem claim_relocate_choice_cex :
    relocate_choice cex_secs ⟨0, 2⟩ = some ⟨0, 2⟩
    ∧ (⟨2 ^ 63, 1⟩ : Pfx) ∈ relocate_candidates cex_secs ⟨0, 2⟩
    ∧ Pfx.len ⟨2 ^ 63, 1⟩ < Pfx.len ⟨0, 2⟩ := by
  have hcand : relocate_candidates cex_secs ⟨0, 2⟩ = [⟨2 ^ 63, 1⟩, ⟨2 ^ 62, 2⟩, ⟨0, 2⟩] := by
    decide
  have hfind : findVal? cex_secs ⟨2 ^ 63, 1⟩
      = some ⟨⟨2 ^ 63, 1⟩, List.replicate 10001 ⟨0, 5⟩, 0⟩ := by
    simp only [cex_secs, findVal?]
    rw [if_neg (by decide), if_neg (by decide), if_pos trivial]
  have hk1 : reloc_key cex_secs ⟨2 ^ 63, 1⟩ = 20001 := by
    unfold reloc_key sec_size
    rw [hfind]
    simp only [Option.map_some', Option.getD_some, Sec.size, List.length_replicate]
  have hk2 : reloc_key cex_secs ⟨2 ^ 62, 2⟩ = 20007 := by decide
  have hk3 : reloc_key cex_secs ⟨0, 2⟩ = 20000 := by decide
  refine ⟨?_, ?_, ?_⟩
  · unfold relocate_choice
    rw [hcand]
    simp only [List.foldl_cons, List.foldl_nil]
    rw [if_neg (show ¬(reloc_key cex_secs ⟨2 ^ 62, 2⟩ < reloc_key cex_secs ⟨2 ^ 63, 1⟩) by
      rw [hk2, hk1]; omega)]
    rw [if_pos (show reloc_key cex_secs ⟨0, 2⟩ < reloc_key cex_secs ⟨2 ^ 63, 1⟩ by
      rw [hk3, hk1]; omega)]
  · rw [hcand]
    decide
  · decide

/-- C4 amended: when every candidate's section holds fewer than 10000
members, the relocation choice is the minimum of the candidate set in the
ascending lexicographic order on (prefix length, section size). -/
theorem claim_relocate_choice_amended (secs : List (Pfx × Sec)) (src : Pfx)
    (hsz : ∀ q ∈ relocate_candidates secs src, sec_size secs q < 10000) :
    ∃ c, relocate_choice secs src = some c ∧ c ∈ relocate_candidates secs src ∧
      ∀ q ∈ relocate_candidates secs src,
        c.len < q.len ∨ (c.len = q.len ∧ sec_size secs c ≤ sec_size secs q) := by
  rcases hcand : relocate_candidates secs src with _ | ⟨c0, cs⟩
  · exfalso
    have hne : relocate_candidates secs src ≠ [] := by
      unfold relocate_candidates
      simp
    exact hne hcand
  · have hfold := foldl_min_key (reloc_key secs) c0 cs
    refine ⟨cs.foldl
      (fun best x => if reloc_key secs x < reloc_key secs best then x else best) c0,
      ?_, ?_, ?_⟩
    · unfold relocate_choice
      rw [hcand]
    · exact hfold.1
    · intro q hq
      set c := cs.foldl
        (fun best x => if reloc_key secs x < reloc_key secs best then x else best) c0 with hc
      have h1 := hfold.2 q hq
      have h2 := hsz q (by rw [hcand]; exact hq)
      have h3 := hsz c (by rw [hcand]; exact hfold.1)
      have e1 : reloc_key secs c = c.len * 10000 + sec_size secs c := rfl
      have e2 : reloc_key secs q = q.len * 10000 + sec_size secs q := rfl
      omega

namespace Pfx

theorem shorten_len (p : Pfx) : p.shorten.len = p.len - 1 := by
  unfold shorten
  split
  · omega
  · rfl

theorem shorten_bits (p : Pfx) (h1 : 1 ≤ p.len) (h2 : p.len ≤ 64) (hb : p.bits < 2 ^ 64) :
    p.shorten.bits = 2 ^ (65 - p.len) * (p.bits / 2 ^ (65 - p.len)) := by
  rw [shorten_eq p h1 h2 hb]

theorem canonical_shorten (p : Pfx) (hc : canonical p) : canonical p.shorten := by
  obtain ⟨hl64, hblt, hmod⟩ := hc
  have hc : canonical p := ⟨hl64, hblt, hmod⟩
  by_cases h1 : 1 ≤ p.len
  · rw [shorten_eq p h1 hc.1 hc.2.1]
    refine ⟨by show p.len - 1 ≤ 64; omega, ?_, ?_⟩
    · show 2 ^ (65 - p.len) * (p.bits / 2 ^ (65 - p.len)) < 2 ^ 64
      calc 2 ^ (65 - p.len) * (p.bits / 2 ^ (65 - p.len)) ≤ p.bits := by
            rw [Nat.mul_comm]; exact Nat.div_mul_le_self _ _
        _ < 2 ^ 64 := hc.2.1
    · show 2 ^ (65 - p.len) * (p.bits / 2 ^ (65 - p.len)) % 2 ^ (64 - (p.len - 1)) = 0
      have he : 64 - (p.len - 1) = 65 - p.len := by omega
      rw [he]
      exact Nat.mul_mod_right _ _
  · unfold shorten
    rw [if_pos (by omega)]
    exact hc

theorem testBit_trunc (x m j : Nat) (h : m ≤ j) :
    (2 ^ m * (x / 2 ^ m)).testBit j = x.testBit j := by
  rw [Nat.testBit_mul_pow_two]
  have h2 : x / 2 ^ m = x >>> m := (Nat.shiftRight_eq_div_pow x m).symm
  rw [h2, Nat.testBit_shiftRight]
  simp only [ge_iff_le, h, decide_True, Bool.true_and]
  congr 1
  omega

theorem and_two_pow_eq (x j : Nat) : x &&& 2 ^ j = if x.testBit j then 2 ^ j else 0 := by
  apply Nat.eq_of_testBit_eq
  intro k
  simp only [Nat.testBit_and]
  by_cases hjk : j = k
  · subst hjk
    by_cases hx : x.testBit j <;> simp [hx, Nat.testBit_two_pow_self]
  · by_cases hx : x.testBit j <;>
      simp [hx, Nat.testBit_two_pow, hjk, Nat.zero_testBit]

theorem from_str_go_append (xs : List Char) (c : Char) (acc q : Pfx)
    (h : from_str_go acc xs = some q) :
    from_str_go acc (xs ++ [c])
      = if c = '0' then some (q.extend 0)
        else if c = '1' then some (q.extend 1) else none := by
  induction xs generalizing acc with
  | nil =>
    simp only [from_str_go] at h
    injection h with h
    subst h
    simp only [List.nil_append, from_str_go]
  | cons d ds ih =>
    simp only [List.cons_append, from_str_go] at h ⊢
    by_cases hd : d = '0'
    · rw [if_pos hd] at h ⊢
      exact ih _ h
    · rw [if_neg hd] at h ⊢
      by_cases hd1 : d = '1'
      · rw [if_pos hd1] at h ⊢
        exact ih _ h
      · rw [if_neg hd1] at h
        exact absurd h (by simp)

theorem to_string_split (p : Pfx) (hc : canonical p) (h1 : 1 ≤ p.len) :
    to_string p = to_string p.shorten
      ++ [if p.bits &&& (1 <<< (64 - p.len)) == 0 then '0' else '1'] := by
  have h2 : p.len ≤ 64 := hc.1
  unfold to_string
  have hlen : p.len = (p.len - 1) + 1 := by omega
  conv_lhs => rw [hlen, List.range_succ, List.map_append]
  congr 1
  · rw [shorten_len]
    apply List.map_congr_left
    intro i hi
    have hi' : i < p.len - 1 := List.mem_range.mp hi
    have hbits : p.shorten.bits &&& (1 <<< (63 - i)) = p.bits &&& (1 <<< (63 - i)) := by
      rw [shorten_bits p h1 h2 hc.2.1, Nat.one_shiftLeft, and_two_pow_eq, and_two_pow_eq,
        testBit_trunc _ _ _ (by omega)]
    rw [hbits]
  · simp only [List.map_cons, List.map_nil]
    have he : 63 - (p.len - 1) = 64 - p.len := by omega
    rw [he]

theorem shorten_extend (p : Pfx) (hc : canonical p) (h1 : 1 ≤ p.len) :
    p.shorten.extend (if p.bits &&& (1 <<< (64 - p.len)) == 0 then 0 else 1) = p := by
  have h2 : p.len ≤ 64 := hc.1
  have hcs := canonical_shorten p hc
  rw [extend_eq _ _ (by rw [shorten_len]; omega) hcs]
  apply eq_of_parts
  · show p.shorten.bits
        + (if p.bits &&& (1 <<< (64 - p.len)) == 0 then 0 else 1) % 2
          * 2 ^ (63 - p.shorten.len) = p.bits
    rw [shorten_len, shorten_bits p h1 h2 hc.2.1]
    have hexp : 63 - (p.len - 1) = 64 - p.len := by omega
    rw [hexp]
    have hm : 65 - p.len = (64 - p.len) + 1 := by omega
    have hsplit := Nat.mod_pow_succ (x := p.bits) (b := 2) (k := 64 - p.len)
    rw [← hm] at hsplit
    have hmod : p.bits % 2 ^ (64 - p.len) = 0 := hc.2.2
    have hdm := (Nat.div_add_mod p.bits (2 ^ (65 - p.len))).symm
    by_cases hbit : (p.bits &&& (1 <<< (64 - p.len)) == 0) = true
    · rw [if_pos hbit]
      have hbit0 : p.bits / 2 ^ (64 - p.len) % 2 = 0 := by
        have h' : p.bits &&& (1 <<< (64 - p.len)) = 0 := by simpa using hbit
        rw [Nat.one_shiftLeft, and_two_pow_eq] at h'
        by_cases ht : p.bits.testBit (64 - p.len)
        · rw [if_pos ht] at h'
          simp at h'
        · rw [Nat.testBit_to_div_mod] at ht
          simp only [decide_eq_true_eq] at ht
          omega
      rw [hbit0, Nat.mul_zero, Nat.add_zero, hmod] at hsplit
      omega
    · rw [if_neg hbit]
      have hbit1 : p.bits / 2 ^ (64 - p.len) % 2 = 1 := by
        have h' : ¬p.bits &&& (1 <<< (64 - p.len)) = 0 := by simpa using hbit
        rw [Nat.one_shiftLeft, and_two_pow_eq] at h'
        by_cases ht : p.bits.testBit (64 - p.len)
        · rw [Nat.testBit_to_div_mod] at ht
          simpa using ht
        · rw [if_neg ht] at h'
          exact absurd rfl h'
      rw [hbit1, Nat.mul_one, hmod, Nat.zero_add] at hsplit
      omega
  · show p.shorten.len + 1 = p.len
    rw [shorten_len]
    omega

end Pfx

/-- C10: rendering a canonical prefix as its '0'/'1' character string and
re-parsing it yields the prefix back. -/
theorem claim_to_string_from_str (p : Pfx) (hc : Pfx.canonical p) :
    Pfx.from_str (Pfx.to_string p) = some p := by
  suffices h : ∀ n q, Pfx.canonical q → q.len = n →
      Pfx.from_str (Pfx.to_string q) = some q by
    exact h p.len p hc rfl
  intro n
  induction n with
  | zero =>
    intro q hq hl
    have hb0 : q.bits = 0 := by
      have hm := hq.2.2
      rw [hl] at hm
      rwa [Nat.sub_zero, Nat.mod_eq_of_lt hq.2.1] at hm
    have hq0 : q = Pfx.empty := Pfx.eq_of_parts hb0 hl
    rw [hq0]
    rfl
  | succ n ih =>
    intro q hq hl
    have h1 : 1 ≤ q.len := by omega
    rw [Pfx.to_string_split q hq h1]
    unfold Pfx.from_str
    have ihq := ih q.shorten (Pfx.canonical_shorten q hq)
      (by rw [Pfx.shorten_len]; omega)
    unfold Pfx.from_str at ihq
    rw [Pfx.from_str_go_append _ _ _ _ ihq]
    have hse := Pfx.shorten_extend q hq h1
    by_cases hbit : (q.bits &&& (1 <<< (64 - q.len)) == 0) = true
    · rw [if_pos hbit] at hse
      rw [if_pos hbit, if_pos rfl, hse]
    · rw [if_neg hbit] at hse
      rw [if_neg hbit, if_neg (by decide), if_pos rfl, hse]

/-- Witness for C10 at the canonical prefix `110`. -/
theorem claim_to_string_from_str_witness :
    Pfx.canonical ⟨2 ^ 63 + 2 ^ 62, 3⟩
    ∧ Pfx.from_str (Pfx.to_string ⟨2 ^ 63 + 2 ^ 62, 3⟩) = some ⟨2 ^ 63 + 2 ^ 62, 3⟩ :=
  ⟨by decide, claim_to_string_from_str ⟨2 ^ 63 + 2 ^ 62, 3⟩ (by decide)⟩

/-! Properties of the predecessor query `next_back`: it finds a key below
the bound when one exists, its result is such a key, and the result is the
greatest of them. -/

theorem upd_acc_some (acc : Option Pfx) (k : Pfx) :
    ∃ c, upd_acc acc k = some c := by
  cases acc with
  | none => exact ⟨k, rfl⟩
  | some b =>
    by_cases hb : Pfx.plt b k
    · exact ⟨k, by simp [upd_acc, hb]⟩
    · exact ⟨b, by simp [upd_acc, hb]⟩

theorem nb_acc_some {α : Type} (l : List (Pfx × α)) (bound : Pfx) (a : Pfx) :
    ∃ m, next_back l bound (some a) = some m := by
  induction l generalizing a with
  | nil => exact ⟨a, rfl⟩
  | cons kv rest ih =>
    obtain ⟨k, v⟩ := kv
    simp only [next_back]
    by_cases hk : Pfx.plt k bound
    · rw [if_pos hk]
      obtain ⟨c, hc⟩ := upd_acc_some (some a) k
      rw [hc]
      exact ih c
    · rw [if_neg hk]
      exact ih a

theorem nb_some {α : Type} (l : List (Pfx × α)) (bound p : Pfx)
    (hmem : p ∈ keys l) (hlt : Pfx.plt p bound) :
    ∀ acc, ∃ m, next_back l bound acc = some m := by
  induction l with
  | nil => simp [keys] at hmem
  | cons kv rest ih =>
    obtain ⟨k, v⟩ := kv
    intro acc
    simp only [keys, List.map_cons] at hmem
    simp only [next_back]
    rcases List.mem_cons.mp hmem with h | h
    · subst h
      rw [if_pos hlt]
      obtain ⟨c, hc⟩ := upd_acc_some acc p
      rw [hc]
      exact nb_acc_some rest bound c
    · by_cases hk : Pfx.plt k bound
      · rw [if_pos hk]
        obtain ⟨c, hc⟩ := upd_acc_some acc k
        rw [hc]
        exact nb_acc_some rest bound c
      · rw [if_neg hk]
        exact ih h acc

theorem nb_result {α : Type} (l : List (Pfx × α)) (bound : Pfx) (acc : Option Pfx)
    (m : Pfx) (h : next_back l bound acc = some m) :
    acc = some m ∨ (m ∈ keys l ∧ Pfx.plt m bound) := by
  induction l generalizing acc with
  | nil => exact Or.inl h
  | cons kv rest ih =>
    obtain ⟨k, v⟩ := kv
    simp only [next_back] at h
    simp only [keys, List.map_cons]
    by_cases hk : Pfx.plt k bound
    · rw [if_pos hk] at h
      rcases ih (upd_acc acc k) h with h' | h'
      · cases acc with
        | none =>
          simp only [upd_acc] at h'
          injection h' with h'
          exact Or.inr ⟨by rw [← h']; exact List.mem_cons_self _ _,
            by rw [← h']; exact hk⟩
        | some b =>
          simp only [upd_acc] at h'
          by_cases hb : Pfx.plt b k
          · rw [if_pos hb] at h'
            injection h' with h'
            exact Or.inr ⟨by rw [← h']; exact List.mem_cons_self _ _,
              by rw [← h']; exact hk⟩
          · rw [if_neg hb] at h'
            exact Or.inl h'
      · exact Or.inr ⟨List.mem_cons_of_mem _ h'.1, h'.2⟩
    · rw [if_neg hk] at h
      rcases ih acc h with h' | h'
      · exact Or.inl h'
      · exact Or.inr ⟨List.mem_cons_of_mem _ h'.1, h'.2⟩

theorem nb_ge {α : Type} (l : List (Pfx × α)) (bound : Pfx) (acc : Option Pfx)
    (m : Pfx) (h : next_back l bound acc = some m) :
    (∀ q ∈ keys l, Pfx.plt q bound → ¬Pfx.plt m q)
    ∧ (∀ a, acc = some a → ¬Pfx.plt m a) := by
  induction l generalizing acc with
  | nil =>
    simp only [next_back] at h
    refine ⟨by simp [keys], ?_⟩
    intro a ha
    rw [ha] at h
    injection h with h
    rw [h]
    exact Pfx.plt_irrefl m
  | cons kv rest ih =>
    obtain ⟨k, v⟩ := kv
    simp only [next_back] at h
    by_cases hk : Pfx.plt k bound
    · rw [if_pos hk] at h
      have ihh := ih (upd_acc acc k) h
      have hmk : ¬Pfx.plt m k := by
        cases acc with
        | none => exact ihh.2 k (by simp [upd_acc])
        | some b =>
          by_cases hb : Pfx.plt b k
          · exact ihh.2 k (by simp [upd_acc, hb])
          · have hmb : ¬Pfx.plt m b := ihh.2 b (by simp [upd_acc, hb])
            rcases Pfx.plt_total k b with h' | h' | h'
            · exact fun hmk => hmb (Pfx.plt_trans hmk h')
            · rw [h']
              exact hmb
            · exact absurd h' hb
      have hacc : ∀ a, acc = some a → ¬Pfx.plt m a := by
        intro a ha
        by_cases hak : Pfx.plt a k
        · exact fun hma => hmk (Pfx.plt_trans hma hak)
        · exact ihh.2 a (by rw [ha]; simp [upd_acc, hak])
      refine ⟨?_, hacc⟩
      intro q hq hqb
      simp only [keys, List.map_cons] at hq
      rcases List.mem_cons.mp hq with h' | h'
      · rw [h']
        exact hmk
      · exact ihh.1 q h' hqb
    · rw [if_neg hk] at h
      have ihh := ih acc h
      refine ⟨?_, ihh.2⟩
      intro q hq hqb
      simp only [keys, List.map_cons] at hq
      rcases List.mem_cons.mp hq with h' | h'
      · rw [h'] at hqb
        exact absurd hqb hk
      · exact ihh.1 q h' hqb

/-- Ordering core of C5: under the cover, every live key below the
name's sentinel bound is at most the unique key matching the name. -/
theorem cover_pred_max (net : Network) (name : Nat) (p0 : Pfx)
    (hcan : ∀ p ∈ keys net.nodes, Pfx.canonical p)
    (hcov : ∀ m : Nat, m < 2 ^ 64 →
      ∃! p, p ∈ keys net.nodes ∧ Pfx.matches_name p m = true)
    (hn : name < 2 ^ 64)
    (hp0mem : p0 ∈ keys net.nodes) (hp0match : Pfx.matches_name p0 name = true) :
    ∀ q ∈ keys net.nodes, Pfx.plt q (Pfx.from_name name) → q = p0 ∨ Pfx.plt q p0 := by
  intro q hqmem hqlt
  by_cases hne : q = p0
  · exact Or.inl hne
  right
  have hp0can := hcan p0 hp0mem
  have hqcan := hcan q hqmem
  have hp0bits : p0.bits = 2 ^ (64 - p0.len) * (name / 2 ^ (64 - p0.len)) :=
    (Pfx.matches_iff p0 name hp0can.1 hn).mp hp0match
  have hq_nomatch : ¬Pfx.matches_name q name = true := by
    intro hmq
    obtain ⟨r, _, hru⟩ := hcov name hn
    exact hne ((hru q ⟨hqmem, hmq⟩).trans (hru p0 ⟨hp0mem, hp0match⟩).symm)
  have hqle : q.bits ≤ name := by
    rcases hqlt with h | h
    · exact Nat.le_of_lt h
    · exact Nat.le_of_eq h.1
  have hname_ub : name < p0.bits + 2 ^ (64 - p0.len) := by
    have hdm := Nat.div_add_mod name (2 ^ (64 - p0.len))
    have hmodlt : name % 2 ^ (64 - p0.len) < 2 ^ (64 - p0.len) :=
      Nat.mod_lt _ (by positivity)
    omega
  rcases Nat.lt_or_ge q.bits p0.bits with hlt | hge
  · unfold Pfx.plt
    exact Or.inl hlt
  exfalso
  have hdiv0 : q.bits / 2 ^ (64 - p0.len) = name / 2 ^ (64 - p0.len) := by
    apply Nat.div_eq_of_lt_le
    · calc name / 2 ^ (64 - p0.len) * 2 ^ (64 - p0.len)
          = 2 ^ (64 - p0.len) * (name / 2 ^ (64 - p0.len)) := Nat.mul_comm _ _
        _ = p0.bits := hp0bits.symm
        _ ≤ q.bits := hge
    · calc q.bits ≤ name := hqle
        _ < p0.bits + 2 ^ (64 - p0.len) := hname_ub
        _ = (name / 2 ^ (64 - p0.len) + 1) * 2 ^ (64 - p0.len) := by
            rw [hp0bits]; ring
  have hqbits : q.bits = 2 ^ (64 - q.len) * (q.bits / 2 ^ (64 - q.len)) :=
    (Nat.mul_div_cancel' (Nat.dvd_of_mod_eq_zero hqcan.2.2)).symm
  by_cases hlen : p0.len ≤ q.len
  · -- two distinct cover elements would both match the name `q.bits`
    have hm1 : Pfx.matches_name p0 q.bits = true := by
      rw [Pfx.matches_iff p0 q.bits hp0can.1 hqcan.2.1, hdiv0]
      exact hp0bits
    have hm2 : Pfx.matches_name q q.bits = true := by
      rw [Pfx.matches_iff q q.bits hqcan.1 hqcan.2.1]
      exact hqbits
    obtain ⟨r, _, hru⟩ := hcov q.bits hqcan.2.1
    exact hne ((hru q ⟨hqmem, hm2⟩).trans (hru p0 ⟨hp0mem, hm1⟩).symm)
  · -- a shorter key whose pattern lies in the block would match the name
    have hsq : 64 - p0.len ≤ 64 - q.len := by omega
    have hstep : q.bits / 2 ^ (64 - q.len) = name / 2 ^ (64 - q.len) := by
      have hsplit : (2 : Nat) ^ (64 - q.len)
          = 2 ^ (64 - p0.len) * 2 ^ ((64 - q.len) - (64 - p0.len)) := by
        rw [← pow_add]; congr 1; omega
      rw [hsplit, ← Nat.div_div_eq_div_mul, ← Nat.div_div_eq_div_mul, hdiv0]
    apply hq_nomatch
    rw [Pfx.matches_iff q name hqcan.1 hn, ← hstep]
    exact hqbits

/-- C5: whenever every live key is canonical and the keys cover every
64-bit name exactly once, the predecessor query of `prefix_for_node`
returns a prefix and that prefix matches the node's name, so the `unwrap`
and the match assertion in the Rust code cannot fail. -/
theorem claim_prefix_for_node (net : Network) (nd : Node)
    (hcan : ∀ p ∈ keys net.nodes, Pfx.canonical p)
    (hcov : ∀ m : Nat, m < 2 ^ 64 →
      ∃! p, p ∈ keys net.nodes ∧ Pfx.matches_name p m = true)
    (hn : nd.name < 2 ^ 64) :
    ∃ p, Network.prefix_for_node net nd = some p
      ∧ Pfx.matches_name p nd.name = true := by
  obtain ⟨p0, ⟨hp0mem, hp0match⟩, _⟩ := hcov nd.name hn
  have hp0can := hcan p0 hp0mem
  have hp0bits : p0.bits = 2 ^ (64 - p0.len) * (nd.name / 2 ^ (64 - p0.len)) :=
    (Pfx.matches_iff p0 nd.name hp0can.1 hn).mp hp0match
  have hp0le : p0.bits ≤ nd.name := by
    rw [hp0bits, Nat.mul_comm]
    exact Nat.div_mul_le_self _ _
  have hq0 : Pfx.plt p0 (Pfx.from_name nd.name) := by
    unfold Pfx.plt Pfx.from_name
    rcases Nat.lt_or_ge p0.bits nd.name with h | h
    · exact Or.inl h
    · refine Or.inr ⟨?_, ?_⟩
      · show p0.bits = nd.name
        omega
      · show p0.len < 255
        have := hp0can.1
        omega
  obtain ⟨m, hm⟩ := nb_some net.nodes (Pfx.from_name nd.name) p0 hp0mem hq0 none
  have hres := nb_result net.nodes (Pfx.from_name nd.name) none m hm
  rcases hres with h | hres
  · cases h
  have hge := (nb_ge net.nodes (Pfx.from_name nd.name) none m hm).1
  have hmax := cover_pred_max net nd.name p0 hcan hcov hn hp0mem hp0match
  rcases hmax m hres.1 hres.2 with h | h
  · refine ⟨p0, ?_, hp0match⟩
    rw [← h]
    exact hm
  · exact absurd h (hge p0 hp0mem hq0)

/-- The single-section network covers every 64-bit name exactly once:
only the empty prefix is live, and it matches everything. -/
theorem net_single_cover :
    ∀ m : Nat, m < 2 ^ 64 →
      ∃! p, p ∈ keys net_single.nodes ∧ Pfx.matches_name p m = true := by
  intro m _
  refine ⟨Pfx.empty, ⟨by simp [net_single, keys], ?_⟩, ?_⟩
  · unfold Pfx.matches_name Pfx.len_mask
    simp [Pfx.empty]
  · rintro q ⟨hq, _⟩
    simpa [net_single, keys] using hq

/-- Witness for C5: the single-section network and a node named 5. -/
theorem claim_prefix_for_node_witness :
    (∀ p ∈ keys net_single.nodes, Pfx.canonical p)
    ∧ Node.name ⟨5, 4⟩ < 2 ^ 64
    ∧ (∃ p, Network.prefix_for_node net_single ⟨5, 4⟩ = some p
        ∧ Pfx.matches_name p (Node.name ⟨5, 4⟩) = true) :=
  ⟨by decide, by decide,
    claim_prefix_for_node net_single ⟨5, 4⟩ (by decide) net_single_cover (by decide)⟩

theorem is_ancestor_iff (p other : Pfx) (hp : p.len ≤ 64) (hob : other.bits < 2 ^ 64) :
    Pfx.is_ancestor p other = true
      ↔ p.len ≤ other.len
        ∧ p.bits = 2 ^ (64 - p.len) * (other.bits / 2 ^ (64 - p.len)) := by
  unfold Pfx.is_ancestor
  rw [Bool.and_eq_true, decide_eq_true_eq, Pfx.matches_iff p other.bits hp hob]

/-- In the `(bits, len)` key order every ancestor of a target precedes
every compatible non-ancestor (i.e. strict descendant) of it.  This is why
`find`-first over the sorted pending-merge keys returns an ancestor
whenever one is present. -/
theorem anc_plt_desc (A D T : Pfx)
    (hAc : Pfx.canonical A) (hDc : Pfx.canonical D) (hTc : Pfx.canonical T)
    (hA : Pfx.is_ancestor A T = true)
    (hcomp : Pfx.is_compatible_with D T = true)
    (hDnot : ¬Pfx.is_ancestor D T = true) :
    Pfx.plt A D := by
  have hTD : Pfx.is_ancestor T D = true := by
    have h : Pfx.is_ancestor D T = true ∨ Pfx.is_ancestor T D = true := by
      simpa [Pfx.is_compatible_with, Pfx.is_child] using hcomp
    rcases h with h | h
    · exact absurd h hDnot
    · exact h
  obtain ⟨hAlen, hAbits⟩ := (is_ancestor_iff A T hAc.1 hTc.2.1).mp hA
  obtain ⟨hTlen, hTbits⟩ := (is_ancestor_iff T D hTc.1 hDc.2.1).mp hTD
  have h1 : A.bits ≤ T.bits := by
    rw [hAbits, Nat.mul_comm]
    exact Nat.div_mul_le_self _ _
  have h2 : T.bits ≤ D.bits := by
    rw [hTbits, Nat.mul_comm]
    exact Nat.div_mul_le_self _ _
  unfold Pfx.plt
  rcases Nat.lt_or_ge A.bits D.bits with hlt | hge
  · exact Or.inl hlt
  · have heq1 : A.bits = D.bits := Nat.le_antisymm (h1.trans h2) hge
    have heqTD : T.bits = D.bits := Nat.le_antisymm h2 (by omega)
    have hlt2 : T.len < D.len := by
      rcases Nat.lt_or_ge T.len D.len with h | h
      · exact h
      · exfalso
        apply hDnot
        rw [is_ancestor_iff D T hDc.1 hTc.2.1]
        refine ⟨by omega, ?_⟩
        rw [heqTD]
        exact (Nat.mul_div_cancel' (Nat.dvd_of_mod_eq_zero hDc.2.2)).symm
    exact Or.inr ⟨heq1, by omega⟩

/-- `find?` over a strictly sorted list returns a result no later (hence
no greater) than any other element satisfying the predicate. -/
theorem find_first_le (l : List Pfx) (pred : Pfx → Bool) (a b : Pfx)
    (hsort : List.Pairwise Pfx.plt l) (hfind : l.find? pred = some a)
    (hb : b ∈ l) (hpb : pred b = true) : a = b ∨ Pfx.plt a b := by
  induction l with
  | nil => simp at hfind
  | cons x xs ih =>
    rcases List.pairwise_cons.mp hsort with ⟨hx_all, hxs⟩
    by_cases hx : pred x = true
    · rw [List.find?_cons_of_pos _ hx] at hfind
      injection hfind with hfind
      subst hfind
      rcases List.mem_cons.mp hb with h | h
      · exact Or.inl h.symm
      · exact Or.inr (hx_all b h)
    · rw [List.find?_cons_of_neg _ (by simpa using hx)] at hfind
      rcases List.mem_cons.mp hb with h | h
      · rw [h] at hpb
        exact absurd hpb hx
      · exact ih hxs hfind h

/-- C7: when some pending-merge key is compatible with `p.shorten()` and an
ancestor of it, `merge` returns with the whole network state unchanged. -/
theorem claim_merge_idempotent (net : Network) (p : Pfx)
    (hsort : List.Pairwise Pfx.plt (keys net.pending_merges))
    (hcan : ∀ k ∈ keys net.pending_merges, Pfx.canonical k)
    (htcan : Pfx.canonical p.shorten)
    (k0 : Pfx) (hk0 : k0 ∈ keys net.pending_merges)
    (hcomp : Pfx.is_compatible_with k0 p.shorten = true)
    (hanc : Pfx.is_ancestor k0 p.shorten = true) :
    Network.merge_op net p = net := by
  have hex : ∃ k, (keys net.pending_merges).find?
      (fun k => Pfx.is_compatible_with k p.shorten) = some k := by
    rw [← Option.isSome_iff_exists]
    rw [List.find?_isSome]
    exact ⟨k0, hk0, hcomp⟩
  obtain ⟨kstar, hks⟩ := hex
  have hkmem : kstar ∈ keys net.pending_merges := List.mem_of_find?_eq_some hks
  have hkpred := List.find?_some hks
  have hkanc : Pfx.is_ancestor kstar p.shorten = true := by
    by_cases h : Pfx.is_ancestor kstar p.shorten = true
    · exact h
    · exfalso
      have h2 := anc_plt_desc k0 kstar p.shorten (hcan k0 hk0) (hcan kstar hkmem)
        htcan hanc hkpred h
      rcases find_first_le _ _ kstar k0 hsort hks hk0 hcomp with h' | h'
      · rw [h'] at h
        exact h hanc
      · exact Pfx.plt_irrefl kstar (Pfx.plt_trans h' h2)
  simp only [Network.merge_op, hks]
  rw [if_pos hkanc]

/-- Witness for C7: a pending merge registered at the empty prefix
subsumes a merge request from section `0`. -/
theorem claim_merge_idempotent_witness :
    List.Pairwise Pfx.plt (keys net_pending.pending_merges)
    ∧ Pfx.canonical (Pfx.shorten ⟨0, 1⟩)
    ∧ Pfx.empty ∈ keys net_pending.pending_merges
    ∧ Pfx.is_compatible_with Pfx.empty (Pfx.shorten ⟨0, 1⟩) = true
    ∧ Pfx.is_ancestor Pfx.empty (Pfx.shorten ⟨0, 1⟩) = true
    ∧ Network.merge_op net_pending ⟨0, 1⟩ = net_pending :=
  ⟨by decide, by decide, by decide, by decide, by decide,
    claim_merge_idempotent net_pending ⟨0, 1⟩ (by decide) (by decide) (by decide)
      Pfx.empty (by decide) (by decide) (by decide)⟩

/-- First-stage walk existence: a draw strictly below the total weight
always lands in some section, with a nonnegative remainder strictly below
that section's weight. -/
theorem find_drop_sec_some (l : List (Pfx × Sec)) (d : ℚ)
    (h0 : 0 ≤ d) (hlt : d < (l.map fun kv => kv.2.drop_weight).sum) :
    ∃ p s d', Network.find_drop_sec l d = some (p, s, d')
      ∧ (p, s) ∈ l ∧ 0 ≤ d' ∧ d' < s.drop_weight := by
  induction l generalizing d with
  | nil =>
    simp only [List.map_nil, List.sum_nil] at hlt
    linarith
  | cons kv rest ih =>
    obtain ⟨p, s⟩ := kv
    simp only [Network.find_drop_sec]
    by_cases hw : s.drop_weight > d
    · rw [if_pos hw]
      exact ⟨p, s, d, rfl, List.mem_cons_self _ _, h0, hw⟩
    · rw [if_neg hw]
      push_neg at hw
      have h0' : 0 ≤ d - s.drop_weight := by linarith
      have hlt' : d - s.drop_weight < (rest.map fun kv => kv.2.drop_weight).sum := by
        simp only [List.map_cons, List.sum_cons] at hlt
        linarith
      obtain ⟨p', s', d', h1, h2, h3, h4⟩ := ih _ h0' hlt'
      exact ⟨p', s', d', h1, List.mem_cons_of_mem _ h2, h3, h4⟩

/-- Second-stage walk existence: a remainder strictly below the total of
the nodes' drop probabilities always selects a node. -/
theorem find_drop_node_some (params : Params) (l : List Node) (d : ℚ)
    (h0 : 0 ≤ d)
    (hlt : d < (l.map fun n => n.drop_probability params.drop_dist).sum) :
    ∃ n, Network.find_drop_node params l d = some n := by
  induction l generalizing d with
  | nil =>
    simp only [List.map_nil, List.sum_nil] at hlt
    linarith
  | cons x rest ih =>
    simp only [Network.find_drop_node]
    by_cases hw : x.drop_probability params.drop_dist > d
    · rw [if_pos hw]
      exact ⟨x, rfl⟩
    · rw [if_neg hw]
      push_neg at hw
      apply ih
      · linarith
      · simp only [List.map_cons, List.sum_cons] at hlt
        linarith

/-- C3: `drop_random_node` always increases `drops` and `churn` by exactly
one; and when the cached section weights agree with the members' drop
probabilities (the external section's contract), the draw is in range and
the total weight is positive, the two-stage walk selects a section and a
node in it, and exactly one `Lost` event is appended to that section's
queue.  The `f64` weights are embedded as exact rationals. -/
theorem claim_drop_random_node (net : Network) (r : ℚ) :
    ((Network.drop_random_node net r).output.drops = net.output.drops + 1
      ∧ (Network.drop_random_node net r).output.churn = net.output.churn + 1)
    ∧ ((∀ kv ∈ net.nodes, Sec.drop_weight (Prod.snd kv)
          = ((Prod.snd kv).nodes.map
              fun n => n.drop_probability net.params.drop_dist).sum) →
        0 ≤ r → r < 1 → 0 < Network.total_drop_weight net →
        ∃ p s d n,
          Network.find_drop_sec net.nodes
              (r * Network.total_drop_weight net) = some (p, s, d)
          ∧ Network.find_drop_node net.params s.nodes d = some n
          ∧ (Network.drop_random_node net r).event_queue
            = upsert p ((findVal? net.event_queue p).getD []
                ++ [NetworkEvent.Lost n.name]) net.event_queue) := by
  constructor
  · simp only [Network.drop_random_node]
    split
    · exact ⟨rfl, rfl⟩
    · split
      · exact ⟨rfl, rfl⟩
      · simp [Network.enqueue]
  · intro hw hr0 hr1 hpos
    have hd0 : 0 ≤ r * Network.total_drop_weight net :=
      mul_nonneg hr0 (le_of_lt hpos)
    have hdlt : r * Network.total_drop_weight net
        < Network.total_drop_weight net := by
      have := mul_lt_mul_of_pos_right hr1 hpos
      linarith
    obtain ⟨p, s, d, hfs, hmem, hd0', hdlt'⟩ :=
      find_drop_sec_some net.nodes (r * Network.total_drop_weight net) hd0 hdlt
    have hsw := hw (p, s) hmem
    obtain ⟨n, hfn⟩ := find_drop_node_some net.params s.nodes d hd0'
      (by rw [← hsw]; exact hdlt')
    refine ⟨p, s, d, n, hfs, hfn, ?_⟩
    simp only [Network.total_drop_weight] at hfs
    simp only [Network.drop_random_node, Network.total_drop_weight, hfs, hfn,
      Network.enqueue]

/-- The fixture's cached section weight agrees with its members' drop
probabilities: 2 = 10/5. -/
theorem net_drop_consistent :
    ∀ kv ∈ net_drop.nodes, Sec.drop_weight (Prod.snd kv)
      = ((Prod.snd kv).nodes.map
          fun n => n.drop_probability net_drop.params.drop_dist).sum := by
  intro kv hkv
  simp only [net_drop, List.mem_singleton] at hkv
  subst hkv
  simp [Node.drop_probability, net_drop, base_params]
  norm_num

/-- The fixture's total drop weight is the positive rational 2. -/
theorem net_drop_total_pos : 0 < Network.total_drop_weight net_drop := by
  simp [Network.total_drop_weight, net_drop]

/-- Witness for C3: one section holding one node of age 5 under the
reverse-proportional distribution (weight 2), draw 1/4. -/
theorem claim_drop_random_node_witness :
    (∀ kv ∈ net_drop.nodes, Sec.drop_weight (Prod.snd kv)
        = ((Prod.snd kv).nodes.map
            fun n => n.drop_probability net_drop.params.drop_dist).sum)
    ∧ (0 : ℚ) ≤ 1 / 4 ∧ (1 / 4 : ℚ) < 1
    ∧ 0 < Network.total_drop_weight net_drop
    ∧ ((Network.drop_random_node net_drop (1 / 4)).output.drops
          = net_drop.output.drops + 1
        ∧ (Network.drop_random_node net_drop (1 / 4)).output.churn
          = net_drop.output.churn + 1)
    ∧ ∃ p s d n,
        Network.find_drop_sec net_drop.nodes
            (1 / 4 * Network.total_drop_weight net_drop) = some (p, s, d)
        ∧ Network.find_drop_node net_drop.params s.nodes d = some n
        ∧ (Network.drop_random_node net_drop (1 / 4)).event_queue
          = upsert p ((findVal? net_drop.event_queue p).getD []
              ++ [NetworkEvent.Lost n.name]) net_drop.event_queue :=
  ⟨net_drop_consistent, by norm_num, by norm_num, net_drop_total_pos,
    (claim_drop_random_node net_drop (1 / 4)).1,
    (claim_drop_random_node net_drop (1 / 4)).2 net_drop_consistent (by norm_num)
      (by norm_num) net_drop_total_pos⟩

/-- Witness for the amended C4: sections `0` (2 members) and `1`
(1 member), source `0`; the choice is `1`, the equal-length candidate with
fewer members. -/
theorem claim_relocate_choice_amended_witness :
    (∀ q ∈ relocate_candidates wit_secs ⟨0, 1⟩, sec_size wit_secs q < 10000)
    ∧ (∃ c, relocate_choice wit_secs ⟨0, 1⟩ = some c
        ∧ c ∈ relocate_candidates wit_secs ⟨0, 1⟩
        ∧ ∀ q ∈ relocate_candidates wit_secs ⟨0, 1⟩,
            c.len < q.len ∨ (c.len = q.len ∧ sec_size wit_secs c ≤ sec_size wit_secs q)) :=
  ⟨by decide, claim_relocate_choice_amended wit_secs ⟨0, 1⟩ (by decide)⟩

/-! Lemmas about `eraseKey` and key-removal folds, feeding the analysis of
the merge-finalisation phase. -/

theorem findVal?_none_eraseKey {α : Type} (l : List (Pfx × α)) (k : Pfx)
    (h : findVal? l k = none) : eraseKey k l = l := by
  induction l with
  | nil => rfl
  | cons kv rest ih =>
    obtain ⟨k', v⟩ := kv
    simp only [findVal?] at h
    by_cases hk : k' = k
    · rw [if_pos hk] at h
      cases h
    · rw [if_neg hk] at h
      simp only [eraseKey]
      rw [if_neg fun he => hk he.symm, ih h]

theorem mem_keys_of_mem_eraseKey {α : Type} (l : List (Pfx × α)) (k q : Pfx)
    (h : q ∈ keys (eraseKey k l)) : q ∈ keys l := by
  induction l with
  | nil => exact h
  | cons kv rest ih =>
    obtain ⟨k', v⟩ := kv
    simp only [eraseKey] at h
    by_cases hk : k = k'
    · rw [if_pos hk] at h
      simp only [keys, List.map_cons]
      exact List.mem_cons_of_mem _ h
    · rw [if_neg hk] at h
      simp only [keys, List.map_cons] at h ⊢
      rcases List.mem_cons.mp h with h' | h'
      · exact List.mem_cons.mpr (Or.inl h')
      · exact List.mem_cons.mpr (Or.inr (ih h'))

theorem nodup_keys_eraseKey {α : Type} (l : List (Pfx × α)) (k : Pfx)
    (hnd : (keys l).Nodup) : (keys (eraseKey k l)).Nodup := by
  induction l with
  | nil => simpa [eraseKey] using hnd
  | cons kv rest ih =>
    obtain ⟨k', v⟩ := kv
    simp only [keys, List.map_cons, List.nodup_cons] at hnd
    simp only [eraseKey]
    by_cases hk : k = k'
    · rw [if_pos hk]
      exact hnd.2
    · rw [if_neg hk]
      simp only [keys, List.map_cons, List.nodup_cons]
      exact ⟨fun hmem => hnd.1 (mem_keys_of_mem_eraseKey rest k k' hmem), ih hnd.2⟩

theorem not_mem_keys_eraseKey_self {α : Type} (l : List (Pfx × α)) (k : Pfx)
    (hnd : (keys l).Nodup) : k ∉ keys (eraseKey k l) := by
  induction l with
  | nil => simp [eraseKey, keys]
  | cons kv rest ih =>
    obtain ⟨k', v⟩ := kv
    simp only [keys, List.map_cons, List.nodup_cons] at hnd
    simp only [eraseKey]
    by_cases hk : k = k'
    · rw [if_pos hk, hk]
      exact hnd.1
    · rw [if_neg hk]
      simp only [keys, List.map_cons]
      intro hmem
      rcases List.mem_cons.mp hmem with h' | h'
      · exact hk h'
      · exact ih hnd.2 h'

theorem mem_eraseKey_of_ne {α : Type} (l : List (Pfx × α)) (kv : Pfx × α) (k : Pfx)
    (h : kv ∈ l) (hne : kv.1 ≠ k) : kv ∈ eraseKey k l := by
  induction l with
  | nil => simp at h
  | cons kv' rest ih =>
    obtain ⟨k', v⟩ := kv'
    simp only [eraseKey]
    by_cases hk : k = k'
    · rw [if_pos hk]
      rcases List.mem_cons.mp h with h' | h'
      · exfalso
        apply hne
        rw [h', hk]
      · exact h'
    · rw [if_neg hk]
      rcases List.mem_cons.mp h with h' | h'
      · rw [h']
        exact List.mem_cons_self _ _
      · exact List.mem_cons_of_mem _ (ih h')

theorem mem_foldl_erase {α : Type} (ks : List Pfx) (l : List (Pfx × α)) (kv : Pfx × α)
    (h : kv ∈ l) (hks : kv.1 ∉ ks) :
    kv ∈ List.foldl (fun acc k => eraseKey k acc) l ks := by
  induction ks generalizing l with
  | nil => exact h
  | cons k rest ih =>
    simp only [List.foldl_cons]
    have hne : kv.1 ≠ k := fun he => hks (by rw [he]; exact List.mem_cons_self _ _)
    exact ih _ (mem_eraseKey_of_ne l kv k h hne)
      (fun hmem => hks (List.mem_cons_of_mem _ hmem))

theorem not_mem_keys_foldl_erase_mono {α : Type} (ks : List Pfx)
    (l : List (Pfx × α)) (k : Pfx) (h : k ∉ keys l) :
    k ∉ keys (List.foldl (fun acc k' => eraseKey k' acc) l ks) := by
  induction ks generalizing l with
  | nil => exact h
  | cons k' rest ih =>
    simp only [List.foldl_cons]
    exact ih _ (fun hmem => h (mem_keys_of_mem_eraseKey l k' k hmem))

theorem not_mem_keys_foldl_erase {α : Type} (ks : List Pfx) (l : List (Pfx × α))
    (k : Pfx) (hk : k ∈ ks) (hnd : (keys l).Nodup) :
    k ∉ keys (List.foldl (fun acc k' => eraseKey k' acc) l ks) := by
  induction ks generalizing l with
  | nil => simp at hk
  | cons k' rest ih =>
    simp only [List.foldl_cons]
    rcases List.mem_cons.mp hk with h | h
    · subst h
      exact not_mem_keys_foldl_erase_mono rest _ k
        (not_mem_keys_eraseKey_self l k hnd)
    · exact ih _ h (nodup_keys_eraseKey l k' hnd)

theorem eq_of_mem_nodup_keys {α : Type} (l : List (Pfx × α))
    (hnd : (keys l).Nodup) (kv kv' : Pfx × α)
    (h : kv ∈ l) (h' : kv' ∈ l) (hk : kv.1 = kv'.1) : kv = kv' := by
  induction l with
  | nil => simp at h
  | cons a rest ih =>
    simp only [keys, List.map_cons, List.nodup_cons] at hnd
    rcases List.mem_cons.mp h with h1 | h1 <;> rcases List.mem_cons.mp h' with h2 | h2
    · rw [h1, h2]
    · exfalso
      apply hnd.1
      rw [← h1, hk]
      exact List.mem_map_of_mem Prod.fst h2
    · exfalso
      apply hnd.1
      rw [← h2, ← hk]
      exact List.mem_map_of_mem Prod.fst h1
    · exact ih hnd.2 h1 h2

namespace Network

/-! Frame lemmas: constituent collection and merged-section construction
touch only the section map and the event queues. -/

theorem collect_secs_pending (net : Network) (pfxs : List Pfx) (destructive : Bool) :
    (collect_secs net pfxs destructive).2.pending_merges = net.pending_merges := by
  induction pfxs generalizing net with
  | nil => rfl
  | cons q rest ih =>
    simp only [collect_secs]
    rcases hf : findVal? net.nodes q with _ | s <;> cases destructive <;>
      simp only [hf, Bool.false_eq_true, if_false, if_true, ih]

theorem collect_secs_output (net : Network) (pfxs : List Pfx) (destructive : Bool) :
    (collect_secs net pfxs destructive).2.output = net.output := by
  induction pfxs generalizing net with
  | nil => rfl
  | cons q rest ih =>
    simp only [collect_secs]
    rcases hf : findVal? net.nodes q with _ | s <;> cases destructive <;>
      simp only [hf, Bool.false_eq_true, if_false, if_true, ih]

theorem merged_section_pending (net : Network) (pfxs : List Pfx) (destructive : Bool) :
    (merged_section net pfxs destructive).2.pending_merges = net.pending_merges := by
  simp only [merged_section]
  exact collect_secs_pending net pfxs destructive

theorem merged_section_output (net : Network) (pfxs : List Pfx) (destructive : Bool) :
    (merged_section net pfxs destructive).2.output = net.output := by
  simp only [merged_section]
  exact collect_secs_output net pfxs destructive

/-- Each finalisation step counts exactly one churn event. -/
theorem finalise_one_churn (net : Network) (pfx : Pfx) :
    (finalise_one net pfx).output.churn = net.output.churn + 1 := by
  simp only [finalise_one]
  split
  · rfl
  · split
    · simp only [merged_section_output]
    · simp only [merged_section_output]

/-- Each finalisation step removes exactly its own pending entry. -/
theorem finalise_one_pending (net : Network) (pfx : Pfx) :
    (finalise_one net pfx).pending_merges = eraseKey pfx net.pending_merges := by
  simp only [finalise_one]
  split
  · rename_i heq
    exact (findVal?_none_eraseKey _ _ heq).symm
  · split
    · simp only [merged_section_pending]
    · simp only [merged_section_pending]

theorem foldl_finalise_churn (ks : List Pfx) (net : Network) :
    (List.foldl finalise_one net ks).output.churn = net.output.churn + ks.length := by
  induction ks generalizing net with
  | nil => simp
  | cons k rest ih =>
    simp only [List.foldl_cons, ih, finalise_one_churn, List.length_cons]
    omega

theorem foldl_finalise_pending (ks : List Pfx) (net : Network) :
    (List.foldl finalise_one net ks).pending_merges
      = List.foldl (fun acc k => eraseKey k acc) net.pending_merges ks := by
  induction ks generalizing net with
  | nil => rfl
  | cons k rest ih =>
    simp only [List.foldl_cons, ih, finalise_one_pending]

end Network

/-- C6: with the event queues drained and the pending-merge keys free of
duplicates, the finalisation phase of `process_events` is the fold of the
per-merge step (remove the pending entry, destructively combine its
recorded constituents through `merged_section`, recompute the drop weight,
insert the result) over exactly the pending merges whose `is_done()`
holds; it increments `churn` once per finalised merge, keeps every
unfinished pending merge registered, and leaves no finalised target
registered. -/
theorem claim_finalise_merges (net : Network)
    (_hq : Network.has_events net = false)
    (hnd : (keys net.pending_merges).Nodup) :
    Network.finalise_merges net
      = List.foldl Network.finalise_one net (Network.merges_to_finalise net)
    ∧ (Network.finalise_merges net).output.churn
      = net.output.churn + (Network.merges_to_finalise net).length
    ∧ (∀ kv ∈ net.pending_merges, PendingMerge.is_done kv.2 = false →
        kv ∈ (Network.finalise_merges net).pending_merges)
    ∧ (∀ kv ∈ net.pending_merges, PendingMerge.is_done kv.2 = true →
        kv.1 ∉ keys (Network.finalise_merges net).pending_merges) := by
  refine ⟨rfl, ?_, ?_, ?_⟩
  · exact Network.foldl_finalise_churn _ net
  · intro kv hmem hdone
    have hpend := Network.foldl_finalise_pending (Network.merges_to_finalise net) net
    show kv ∈ (List.foldl Network.finalise_one net
      (Network.merges_to_finalise net)).pending_merges
    rw [hpend]
    apply mem_foldl_erase _ _ _ hmem
    intro hks
    simp only [Network.merges_to_finalise, keys] at hks
    obtain ⟨kv', hkv', hfst⟩ := List.mem_map.mp hks
    have hmem' := List.mem_filter.mp hkv'
    have heq := eq_of_mem_nodup_keys net.pending_merges hnd kv' kv
      hmem'.1 hmem hfst
    rw [heq] at hmem'
    rw [hdone] at hmem'
    exact Bool.false_ne_true hmem'.2
  · intro kv hmem hdone
    have hpend := Network.foldl_finalise_pending (Network.merges_to_finalise net) net
    show kv.1 ∉ keys (List.foldl Network.finalise_one net
      (Network.merges_to_finalise net)).pending_merges
    rw [hpend]
    apply not_mem_keys_foldl_erase _ _ _ ?_ hnd
    simp only [Network.merges_to_finalise, keys]
    exact List.mem_map_of_mem Prod.fst (List.mem_filter.mpr ⟨hmem, hdone⟩)

/-! Supporting facts around the trie-cover invariant.  The cover holds in
the initial network, and the three public random operators do not touch
the section map at all (they only enqueue events), so between operator
calls the cover can only be changed by the split and merge-finalise
transitions inside `process_events`, which depend on the external
section's policy. -/

theorem trie_cover_new (params : Params) : trie_cover (Network.new params).nodes := by
  intro m _
  refine ⟨Pfx.empty, ⟨by simp [Network.new, keys], ?_⟩, ?_⟩
  · unfold Pfx.matches_name Pfx.len_mask
    simp [Pfx.empty]
  · rintro q ⟨hq, _⟩
    simpa [Network.new, keys] using hq

theorem add_random_node_sections (net : Network) (rname : Nat) :
    (Network.add_random_node net rname).nodes = net.nodes := by
  simp only [Network.add_random_node]
  split <;> simp [Network.enqueue]

theorem drop_random_node_sections (net : Network) (r : ℚ) :
    (Network.drop_random_node net r).nodes = net.nodes := by
  simp only [Network.drop_random_node]
  split
  · rfl
  · split
    · rfl
    · simp [Network.enqueue]

theorem rejoin_random_node_sections (net : Network) (shuffled : List Node) :
    (Network.rejoin_random_node net shuffled).nodes = net.nodes := by
  simp only [Network.rejoin_random_node]
  split
  · rfl
  · split
    · rfl
    · simp [Network.enqueue]

/-- The three public random operators preserve the trie cover outright:
they never modify the section map. -/
theorem trie_cover_operators (net : Network) (hc : trie_cover net.nodes)
    (rname : Nat) (r : ℚ) (shuffled : List Node) :
    trie_cover (Network.add_random_node net rname).nodes
    ∧ trie_cover (Network.drop_random_node net r).nodes
    ∧ trie_cover (Network.rejoin_random_node net shuffled).nodes := by
  refine ⟨?_, ?_, ?_⟩
  · rw [add_random_node_sections]
    exact hc
  · rw [drop_random_node_sections]
    exact hc
  · rw [rejoin_random_node_sections]
    exact hc

/-- Witness for C6: one completed pending merge into the empty prefix and
one uncompleted pending merge at `0`. -/
theorem claim_finalise_merges_witness :
    Network.has_events net_final = false
    ∧ (keys net_final.pending_merges).Nodup
    ∧ ((Network.finalise_merges net_final).output.churn
        = net_final.output.churn + (Network.merges_to_finalise net_final).length
      ∧ (∀ kv ∈ net_final.pending_merges, PendingMerge.is_done kv.2 = false →
          kv ∈ (Network.finalise_merges net_final).pending_merges)
      ∧ ∀ kv ∈ net_final.pending_merges, PendingMerge.is_done kv.2 = true →
          kv.1 ∉ keys (Network.finalise_merges net_final).pending_merges) :=
  ⟨by decide, by decide,
    (claim_finalise_merges net_final (by decide) (by decide)).2.1,
    (claim_finalise_merges net_final (by decide) (by decide)).2.2.1,
    (claim_finalise_merges net_final (by decide) (by decide)).2.2.2⟩

end AgeingSim
